import Mathlib

/-!
Shallow embedding of `umi_tools/umi_methods.py` (UMI-tools): the streaming
windowed bundler `get_bundles`, the gene-level counter `get_gene_count`, the
mate reconciliation writer `TwoPassPairWriter`, the barcode extraction helpers
`get_umi_read_id` / `get_umi_tag`, the position classifier `get_read_position`
and the sampling model `random_read_generator.fill`.

Python dictionaries are modelled as insertion-ordered association lists,
Python machine floats used for probabilities as exact rationals, the global
random source `random.random()` as an explicit stream `ℕ → ℚ` of draws
(each draw standing for a uniform sample of `[0,1)`), and Python exceptions
as `Option`/`Except` results.
-/

/-- A Python value that can serve as a dictionary key coming either from an
integer (`read.tid`) or a string (a gene tag, or the initial `""` sentinel of
`last_chr`).  Equality between an `int` and a `str` key is `false`, exactly as
in Python. -/
inductive PosId where
  | int (i : ℤ)
  | str (s : String)
deriving DecidableEq, Repr

/-- Value of an auxiliary BAM tag (`read.opt` / `read.get_tag`). -/
inductive TagVal where
  | int (i : ℤ)
  | str (s : String)
deriving DecidableEq, Repr

/-- Python exception kinds that the embedded code can raise. -/
inductive PyErr where
  | keyError
  | indexError
  | typeError
  | zeroDivisionError
  | valueError (msg : String)
deriving DecidableEq, Repr

/-- The capability set of a pysam `AlignedSegment` that `umi_methods.py`
reads (never writes).  `pos` is the 0-based alignment start
(`read.pos`/`read.reference_start`), `aend` the alignment end, `cigar` a list
of `(operation, length)` pairs (operation 3 = `N` splice, 4 = `S` soft clip). -/
structure Read where
  qname : String
  is_read1 : Bool
  is_read2 : Bool
  is_unmapped : Bool
  mate_is_unmapped : Bool
  is_reverse : Bool
  mapq : ℕ
  tid : ℤ
  pos : ℤ
  aend : ℤ
  cigar : List (ℕ × ℕ)
  tlen : ℤ
  query_length : ℕ
  tags : List (String × TagVal)
  reference_name : String
  next_reference_name : String
  next_reference_start : ℤ
deriving DecidableEq, Repr

/-- `read.get_tag(t)` / `read.opt(t)`: first binding of tag `t`. -/
def Read.getTag (r : Read) (t : String) : Option TagVal :=
  (r.tags.find? (fun kv => kv.1 = t)).map (·.2)

/-- `read.opt(t)` where the code compares the value with `<`/`>` (NH, X0):
the value must be an integer. -/
def Read.optInt (r : Read) (t : String) : Option ℤ :=
  match r.getTag t with
  | some (.int i) => some i
  | _ => none

/-- `read.opt("XT")` where the code compares the value with `== "U"`:
the value must be a string. -/
def Read.optStr (r : Read) (t : String) : Option String :=
  match r.getTag t with
  | some (.str s) => some s
  | _ => none

/-! ### Insertion-ordered association lists (Python `dict`) -/

/-- `d[k]` lookup. -/
def aget {K V : Type} [DecidableEq K] (d : List (K × V)) (k : K) : Option V :=
  (d.find? (fun kv => kv.1 = k)).map (·.2)

/-- `d[k] = v`: update in place if present, else append (insertion order). -/
def aset {K V : Type} [DecidableEq K] (d : List (K × V)) (k : K) (v : V) :
    List (K × V) :=
  match d with
  | [] => [(k, v)]
  | kv :: rest =>
    if kv.1 = k then (k, v) :: rest else kv :: aset rest k v

/-- `del d[k]`: remove the binding of `k` (if present). -/
def adel {K V : Type} [DecidableEq K] (d : List (K × V)) (k : K) :
    List (K × V) :=
  d.filter (fun kv => ¬ kv.1 = k)

/-- `collections.Counter` increment: `c[k] += 1` with default 0. -/
def cincr {K : Type} [DecidableEq K] (c : List (K × ℕ)) (k : K) :
    List (K × ℕ) :=
  match aget c k with
  | some n => aset c k (n + 1)
  | none => aset c k 1

/-- `c[k]` of a Counter (missing keys count 0). -/
def cget {K : Type} [DecidableEq K] (c : List (K × ℕ)) (k : K) : ℕ :=
  (aget c k).getD 0

/-! ### Python `str.split` and the barcode extraction helpers -/

/-- First index at which `sep` occurs in `s`, if any. -/
def findOcc (sep s : List Char) : Option ℕ :=
  match s with
  | [] => if sep = [] then some 0 else none
  | _ :: rest =>
    if sep.isPrefixOf s then some 0
    else (findOcc sep rest).map (· + 1)

/-- Fuel-driven worker for Python `str.split(sep)` with non-empty `sep`. -/
def pySplitGo (sep : List Char) : ℕ → List Char → List (List Char)
  | 0, s => [s]
  | fuel + 1, s =>
    match findOcc sep s with
    | none => [s]
    | some i => s.take i :: pySplitGo sep fuel (s.drop (i + sep.length))

/-- Python `s.split(sep)` for an explicit separator: raises
`ValueError("empty separator")` on `sep = ""`, otherwise splits on every
non-overlapping occurrence, left to right.  Never returns an empty list. -/
def pySplit (s sep : String) : Except PyErr (List String) :=
  if sep = "" then .error (.valueError "empty separator")
  else .ok ((pySplitGo sep.toList (s.length + 1) s.toList).map List.asString)

/-- `get_umi_read_id(read, sep="_")`:
`read.qname.split(sep)[-1].encode('utf-8')` wrapped in
`try/except IndexError` that re-raises a descriptive `ValueError`.
(`.encode` is the identity in this embedding.) -/
def get_umi_read_id (read : Read) (sep : String := "_") : Except PyErr String :=
  let inner : Except PyErr String := do
    let parts ← pySplit read.qname sep
    match parts.getLast? with
    | some last => .ok last
    | none => .error .indexError
  match inner with
  | .error .indexError =>
      .error (.valueError
        "Could not extract UMI from the read ID, pleasecheck UMI is encoded in the read name")
  | other => other

/-- `get_umi_tag(read, tag='RX')`:
`read.get_tag(tag).split("-")[0].encode('utf-8')` wrapped in
`try/except IndexError` that re-raises a descriptive `ValueError`.
`read.get_tag` raises `KeyError` when the tag is absent (pysam), which the
`except IndexError` handler does not catch; a non-string tag value makes
`.split` fail with an attribute/type error. -/
def get_umi_tag (read : Read) (tag : String := "RX") : Except PyErr String :=
  let inner : Except PyErr String := do
    match read.getTag tag with
    | none => .error .keyError
    | some (.int _) => .error .typeError
    | some (.str v) =>
      let parts ← pySplit v "-"
      match parts.head? with
      | some h => .ok h
      | none => .error .indexError
  match inner with
  | .error .indexError =>
      .error (.valueError
        "Could not extract UMI from the read tags, pleasecheck UMI is encoded in the read tag")
  | other => other

/-! ### `get_read_position` -/

/-- `get_read_position(read, soft_clip_threshold)`: returns
`(start, pos, is_spliced)`; `none` models the `IndexError`/`TypeError` the
Python raises on an empty CIGAR. -/
def get_read_position (read : Read) (soft_clip_threshold : ℕ) :
    Option (ℤ × ℤ × Bool) :=
  match h : read.cigar with
  | [] => none
  | c0 :: rest =>
    let cig := c0 :: rest
    let last := cig.getLast (by simp)
    let hasN := cig.any (fun op => op.1 = 3)
    if read.is_reverse then
      let pos0 : ℤ := read.aend
      let pos := if last.1 = 4 then pos0 + (last.2 : ℤ) else pos0
      let start := read.pos
      let is_spliced := hasN || (c0.1 = 4 && decide (c0.2 > soft_clip_threshold))
      some (start, pos, is_spliced)
    else
      let pos0 : ℤ := read.pos
      let pos := if c0.1 = 4 then pos0 - (c0.2 : ℤ) else pos0
      let is_spliced := hasN || (last.1 = 4 && decide (last.2 > soft_clip_threshold))
      some (pos, pos, is_spliced)

/-! ### `get_bundles` -/

/-- `detection_method` argument: `False` (the default) or one of
`"NH"`, `"X0"`, `"XT"`. -/
inductive DetMethod where
  | none
  | NH
  | X0
  | XT
deriving DecidableEq, Repr

/-- The configuration arguments of `get_bundles`.  `skip_regex` models
`re.search(skip_regex, ·)` as a predicate, `umi_getter` is the pluggable
barcode extraction function, `subset = none` models the `None` default. -/
structure Config where
  ignore_umi : Bool := false
  subset : Option ℚ := Option.none
  quality_threshold : ℕ := 0
  paired : Bool := false
  spliced : Bool := false
  soft_clip_threshold : ℕ := 0
  per_contig : Bool := false
  gene_tag : Option String := Option.none
  skip_regex : String → Bool := fun _ => false
  whole_contig : Bool := false
  read_length : Bool := false
  detection_method : DetMethod := DetMethod.none
  umi_getter : Read → String := fun _ => ""
  all_reads : Bool := false
  return_read2 : Bool := false
  return_unmapped : Bool := false

/-- Python truthiness of the `gene_tag` argument (`None` and `""` are falsy). -/
def optTruthy : Option String → Bool
  | Option.some s => decide (s ≠ "")
  | Option.none => false

/-- The `"read"` slot of a bundle entry: a single best read
(`all_reads = False`) or the list of all reads (`all_reads = True`). -/
inductive RVal where
  | one (r : Read)
  | many (rs : List Read)
deriving DecidableEq, Repr

/-- One bundle entry `{"read": ..., "count": ...}`.  The `acc` field is ghost
instrumentation not present in the source: it records every read routed to
this (position, key, barcode) bucket in arrival order and is never consulted
by any decision of the embedded code. -/
structure Entry where
  read : RVal
  count : ℕ
  acc : List Read
deriving DecidableEq, Repr

/-- The grouping key: the contig/gene id itself (per-contig / gene-tag modes)
or the tuple `(read.is_reverse, spliced & is_spliced, paired*read.tlen,
r_length)` (positional mode). -/
inductive GKey where
  | ofPos (p : PosId)
  | tup (rev : Bool) (spl : Bool) (tl : ℤ) (rl : ℕ)
deriving DecidableEq, Repr

abbrev Bundle := List (String × Entry)
abbrev ReadsDict := List (PosId × List (GKey × Bundle))
abbrev RCDict := List (PosId × List (GKey × List (String × ℕ)))

/-- `reads_dict[pos][key][umi]` lookup. -/
def aget3 (d : ReadsDict) (p : PosId) (k : GKey) (u : String) : Option Entry :=
  match aget d p with
  | Option.none => Option.none
  | Option.some kd =>
    match aget kd k with
    | Option.none => Option.none
    | Option.some ud => aget ud u

/-- `reads_dict[pos][key][umi] = e` with `defaultdict` auto-creation of the
intermediate dictionaries. -/
def aset3 (d : ReadsDict) (p : PosId) (k : GKey) (u : String) (e : Entry) :
    ReadsDict :=
  let kd := (aget d p).getD []
  let ud := (aget kd k).getD []
  aset d p (aset kd k (aset ud u e))

/-- `read_counts[pos][key][umi]` lookup. -/
def rcget (d : RCDict) (p : PosId) (k : GKey) (u : String) : Option ℕ :=
  match aget d p with
  | Option.none => Option.none
  | Option.some kd =>
    match aget kd k with
    | Option.none => Option.none
    | Option.some ud => aget ud u

/-- `read_counts[pos][key][umi] = n` with `defaultdict` auto-creation. -/
def rcset (d : RCDict) (p : PosId) (k : GKey) (u : String) (n : ℕ) : RCDict :=
  let kd := (aget d p).getD []
  let ud := (aget kd k).getD []
  aset d p (aset kd k (aset ud u n))

/-- The fall-through reservoir step (lines 433-437):
`read_counts += 1; prob = 1.0/read_counts; if random.random() < prob: rep = read`.
Returns the new representative, the new tie counter, and the fact that a
random draw was consumed. -/
def reservoir (rep : Read) (rc : ℕ) (read : Read) (q : ℚ) :
    Read × ℕ × Bool :=
  let rc' := rc + 1
  let prob : ℚ := 1 / (rc' : ℚ)
  if q < prob then (read, rc', true) else (rep, rc', true)

/-- The representative-selection branch of `get_bundles` (lines 409-437),
acting on the current representative `rep` with tie counter `rc` and a
challenger `read`; `q` is the pending `random.random()` draw.  `none` models
the `KeyError` of `read.opt` on a missing tag.  Note that the two winning
multimapping branches (`NH`/`X0` strictly smaller tag, `XT` challenger
flagged `"U"`) have no `continue` in the source and therefore fall through to
the reservoir step: the tie counter, reset to 0, is immediately incremented
back to 1 and a draw is consumed (the representative stays the challenger
because it was already reassigned). -/
def selectRep (dm : DetMethod) (rep : Read) (rc : ℕ) (read : Read) (q : ℚ) :
    Option (Read × ℕ × Bool) :=
  if rep.mapq > read.mapq then Option.some (rep, rc, false)
  else if rep.mapq < read.mapq then Option.some (read, 0, false)
  else
    match dm with
    | .NH | .X0 =>
      let tag := match dm with | .NH => "NH" | _ => "X0"
      match rep.optInt tag, read.optInt tag with
      | Option.some rv, Option.some cv =>
        if rv < cv then Option.some (rep, rc, false)
        else if rv > cv then
          let fall := reservoir read 0 read q
          Option.some fall
        else Option.some (reservoir rep rc read q)
      | _, _ => Option.none
    | .XT =>
      match rep.optStr "XT" with
      | Option.none => Option.none
      | Option.some rx =>
        if rx = "U" then Option.some (rep, rc, false)
        else
          match read.optStr "XT" with
          | Option.none => Option.none
          | Option.some cx =>
            if cx = "U" then
              let fall := reservoir read 0 read q
              Option.some fall
            else Option.some (reservoir rep rc read q)
    | .none => Option.some (reservoir rep rc read q)

/-- The mutable state of the `get_bundles` generator.  `rix` is the index of
the next unconsumed draw of the explicit random stream. -/
structure BState where
  last_pos : ℤ
  last_chr : PosId
  reads_dict : ReadsDict
  read_counts : RCDict
  read_events : List (String × ℕ)
  rix : ℕ
deriving DecidableEq, Repr

def initB : BState := ⟨0, .str "", [], [], [], 0⟩

/-- An element yielded by `get_bundles`: either `(read, read_events,
'single_read')` or `(bundle, read_events, 'mapped')`, with the counter
snapshotted at yield time. -/
inductive OutItem where
  | single (r : Read)
  | mapped (b : Bundle)
deriving DecidableEq, Repr

abbrev Output := OutItem × List (String × ℕ)

/-- The yields of the flush loop `for p in out_keys: for bundle in
reads_dict[p].values(): yield bundle, read_events, 'mapped'`. -/
def emitBundles (ev : List (String × ℕ)) (rd : ReadsDict) (ks : List PosId) :
    List Output :=
  ks.flatMap (fun p =>
    match aget rd p with
    | Option.some kd => kd.map (fun kv => (OutItem.mapped kv.2, ev))
    | Option.none => [])

/-- Iterated `del d[p]` for every `p` in `ks`. -/
def delKeys {V : Type} (d : List (PosId × V)) (ks : List PosId) :
    List (PosId × V) :=
  d.filter (fun kv => ¬ ks.contains kv.1)

/-- `x <= start - 1000` on a dictionary key: in positional mode every
buffered key is an `int` (a `str` key would make the Python comparison raise
and is unreachable). -/
def pleInt (p : PosId) (n : ℤ) : Bool :=
  match p with
  | .int i => decide (i ≤ n)
  | .str _ => false

/-- The accumulation step (lines 381-437): route `read` to
`reads_dict[pos][key][umi]`, creating the entry or updating the existing one
(count increment first, then representative selection when
`all_reads = False`).  `none` models a raised exception. -/
def accumulate (cfg : Config) (rand : ℕ → ℚ) (st : BState) (pos : PosId)
    (key : GKey) (umi : String) (read : Read) : Option BState :=
  match aget3 st.reads_dict pos key umi with
  | Option.none =>
    let rv := if cfg.all_reads then RVal.many [read] else RVal.one read
    Option.some { st with
      reads_dict := aset3 st.reads_dict pos key umi ⟨rv, 1, [read]⟩,
      read_counts := rcset st.read_counts pos key umi 0 }
  | Option.some e =>
    if cfg.all_reads then
      match e.read with
      | .many rs =>
        Option.some { st with
          reads_dict := aset3 st.reads_dict pos key umi
            ⟨.many (rs ++ [read]), e.count + 1, e.acc ++ [read]⟩ }
      | .one _ => Option.none
    else
      match e.read with
      | .many _ => Option.none
      | .one rep =>
        match rcget st.read_counts pos key umi with
        | Option.none => Option.none
        | Option.some rc =>
          match selectRep cfg.detection_method rep rc read (rand st.rix) with
          | Option.none => Option.none
          | Option.some (rep', rc', used) =>
            Option.some { st with
              reads_dict := aset3 st.reads_dict pos key umi
                ⟨.one rep', e.count + 1, e.acc ++ [read]⟩,
              read_counts := rcset st.read_counts pos key umi rc',
              rix := st.rix + (if used then 1 else 0) }

/-- `not read.tid == last_chr` of the positional window block. -/
def contigChanged (st : BState) (read : Read) : Bool :=
  ! decide (PosId.int read.tid = st.last_chr)

/-- `do_output` (lines 353-356). -/
def doOutput (cfg : Config) (st : BState) (read : Read) (start : ℤ) : Bool :=
  if cfg.whole_contig then contigChanged st read
  else decide (start > st.last_pos + 1000) || contigChanged st read

/-- `out_keys` (lines 359-362). -/
def outKeys (st : BState) (read : Read) (start : ℤ) : List PosId :=
  if contigChanged st read then st.reads_dict.map (·.1)
  else (st.reads_dict.map (·.1)).filter (fun x => pleInt x (start - 1000))

/-- The positional-mode windowing block (lines 353-371): decide `do_output`,
emit and delete the due position groups, and advance the watermark. -/
def flushPositional (cfg : Config) (st : BState) (read : Read) (start : ℤ) :
    List Output × BState :=
  if doOutput cfg st read start then
    (emitBundles st.read_events st.reads_dict (outKeys st read start),
     { st with
        reads_dict := delKeys st.reads_dict (outKeys st read start),
        read_counts := delKeys st.read_counts (outKeys st read start),
        last_pos := start,
        last_chr := .int read.tid })
  else ([], st)

/-- The per-contig / gene-tag flush block (lines 336-346): when the outer key
changes, every buffered group is emitted and deleted. -/
def flushContig (st : BState) (pos : PosId) : List Output × BState :=
  if ¬ (pos = st.last_chr) then
    (emitBundles st.read_events st.reads_dict (st.reads_dict.map (·.1)),
     { st with
        reads_dict := delKeys st.reads_dict (st.reads_dict.map (·.1)),
        read_counts := delKeys st.read_counts (st.reads_dict.map (·.1)),
        last_chr := pos })
  else ([], st)

/-- The MAPQ-threshold check (lines 316-319). -/
def qtPhase (cfg : Config) (st : BState) (read : Read) :
    (List Output × Option BState) ⊕ BState :=
  if cfg.quality_threshold ≠ 0 ∧ read.mapq < cfg.quality_threshold then
    .inl ([], Option.some { st with
      read_events := cincr st.read_events "< MAPQ threshold" })
  else .inr st

/-- The subsampling step (lines 311-315): `random.random() >= subset`
consumes one draw when the `subset` argument is truthy; on a surviving
draw the read proceeds to the MAPQ check with the draw index advanced. -/
def subsetPhase (cfg : Config) (rand : ℕ → ℚ) (st : BState) (read : Read) :
    (List Output × Option BState) ⊕ BState :=
  match (match cfg.subset with
    | Option.some s =>
      if s = 0 then Option.none
      else Option.some (decide (rand st.rix ≥ s))
    | Option.none => Option.none) with
  | Option.some true =>
    .inl ([], Option.some { st with
      read_events := cincr st.read_events "Randomly excluded",
      rix := st.rix + 1 })
  | Option.some false => qtPhase cfg { st with rix := st.rix + 1 } read
  | Option.none => qtPhase cfg st read

/-- The paired-count / subsampling / MAPQ-threshold stage (lines 308-319)
of the `get_bundles` loop body, entered by mapped, mate-mapped non-read2
records. -/
def samplePhase (cfg : Config) (rand : ℕ → ℚ) (st : BState) (read : Read) :
    (List Output × Option BState) ⊕ BState :=
  subsetPhase cfg rand
    (if cfg.paired then
      { st with read_events := cincr st.read_events "Paired Reads" }
    else st) read

/-- The filtering stage of the `get_bundles` loop body (lines 279-319):
read2 handling, the `Input Reads` accounting, the unmapped / mate-unmapped
branches, subsampling and the MAPQ threshold.  `Sum.inl` means the read's
processing ended here with the given yields and next state; `Sum.inr st`
means the read survived every filter with counters and draw index updated. -/
def filterPhase (cfg : Config) (rand : ℕ → ℚ) (st : BState) (read : Read) :
    (List Output × Option BState) ⊕ BState :=
  if read.is_read2 then
    if cfg.return_read2 then
      if ¬ read.is_unmapped ∨ (read.is_unmapped ∧ cfg.return_unmapped) then
        .inl ([(.single read, st.read_events)], Option.some st)
      else .inl ([], Option.some st)
    else .inl ([], Option.some st)
  else
    let st := { st with read_events := cincr st.read_events "Input Reads" }
    if read.is_unmapped then
      let ev :=
        if cfg.paired then
          if read.mate_is_unmapped then cincr st.read_events "Both unmapped"
          else cincr st.read_events "Read 1 unmapped"
        else cincr st.read_events "Single end unmapped"
      if cfg.return_unmapped then
        let ev := cincr ev "Input Reads"
        .inl ([(.single read, ev)], Option.some { st with read_events := ev })
      else .inl ([], Option.some { st with read_events := ev })
    else if read.mate_is_unmapped ∧ cfg.paired then
      let ev :=
        if ¬ read.is_unmapped then cincr st.read_events "Read 2 unmapped"
        else st.read_events
      if cfg.return_unmapped then
        .inl ([(.single read, ev)], Option.some { st with read_events := ev })
      else .inl ([], Option.some { st with read_events := ev })
    else samplePhase cfg rand st read

/-- The grouping stage of the `get_bundles` loop body (lines 321-437):
derive the outer key, flush due groups and accumulate the read. -/
def groupPhase (cfg : Config) (rand : ℕ → ℚ) (st : BState) (read : Read) :
    List Output × Option BState :=
  if cfg.per_contig || optTruthy cfg.gene_tag then
    if cfg.per_contig then
      let pos := PosId.int read.tid
      let umi := if cfg.ignore_umi then "" else cfg.umi_getter read
      match accumulate cfg rand (flushContig st pos).2 pos (.ofPos pos) umi read with
      | Option.some st3 => ((flushContig st pos).1, Option.some st3)
      | Option.none => ((flushContig st pos).1, Option.none)
    else
      match read.getTag ((cfg.gene_tag).getD "") with
      | Option.none => ([], Option.none)
      | Option.some (.int _) => ([], Option.none)
      | Option.some (.str g) =>
        if cfg.skip_regex g then ([], Option.some st)
        else
          let pos := PosId.str g
          let umi := if cfg.ignore_umi then "" else cfg.umi_getter read
          match accumulate cfg rand (flushContig st pos).2 pos (.ofPos pos) umi read with
          | Option.some st3 => ((flushContig st pos).1, Option.some st3)
          | Option.none => ((flushContig st pos).1, Option.none)
  else
    match get_read_position read cfg.soft_clip_threshold with
    | Option.none => ([], Option.none)
    | Option.some (start, pos, is_spliced) =>
      let r_length := if cfg.read_length then read.query_length else 0
      let key := GKey.tup read.is_reverse (cfg.spliced && is_spliced)
        (if cfg.paired then read.tlen else 0) r_length
      let umi := if cfg.ignore_umi then "" else cfg.umi_getter read
      match accumulate cfg rand (flushPositional cfg st read start).2 (.int pos)
          key umi read with
      | Option.some st3 => ((flushPositional cfg st read start).1, Option.some st3)
      | Option.none => ((flushPositional cfg st read start).1, Option.none)

/-- Processing of one read by the `get_bundles` loop body (lines 277-437):
returns the elements yielded while this read was processed and the next
state (`none` models an uncaught exception, which ends the generator after
the yields already produced). -/
def processRead (cfg : Config) (rand : ℕ → ℚ) (st : BState) (read : Read) :
    List Output × Option BState :=
  match filterPhase cfg rand st read with
  | .inl out => out
  | .inr st2 => groupPhase cfg rand st2 read

/-- The `get_bundles` loop over a list of reads, from state `st`. -/
def runReads (cfg : Config) (rand : ℕ → ℚ) (st : BState) :
    List Read → List Output × Option BState
  | [] => ([], Option.some st)
  | r :: rs =>
    match processRead cfg rand st r with
    | (outs, Option.some st') =>
      let rest := runReads cfg rand st' rs
      (outs ++ rest.1, rest.2)
    | (outs, Option.none) => (outs, Option.none)

/-- The terminal flush (lines 440-442): yield every remaining bundle. -/
def finalFlush (st : BState) : List Output :=
  st.reads_dict.flatMap (fun pkv =>
    pkv.2.map (fun kv => (OutItem.mapped kv.2, st.read_events)))

/-- `get_bundles(inreads, ...)`: the full lazy sequence of yielded elements
together with the final generator state (`none` when an exception escaped). -/
def getBundles (cfg : Config) (rand : ℕ → ℚ) (reads : List Read) :
    List Output × Option BState :=
  match runReads cfg rand initB reads with
  | (outs, Option.some st) => (outs ++ finalFlush st, Option.some st)
  | (outs, Option.none) => (outs, Option.none)

/-! ### `get_gene_count` -/

/-- The configuration arguments of `get_gene_count`. -/
structure GConfig where
  subset : Option ℚ := Option.none
  quality_threshold : ℕ := 0
  paired : Bool := false
  per_contig : Bool := false
  gene_tag : Option String := Option.none
  skip_regex : String → Bool := fun _ => false
  umi_getter : Read → String := fun _ => ""

/-- The mutable state of the `get_gene_count` generator.  `gene` is the
module-level variable initialised to `""` and reassigned both by the per-read
gene derivation and - because Python `for` loop variables leak - by the flush
loop `for gene in counts_dict`.  The innermost `{"count": n}` dictionary is
modelled as the bare count. -/
structure GState where
  last_chr : PosId
  gene : PosId
  counts_dict : List (PosId × List (String × ℕ))
  read_events : List (String × ℕ)
  rix : ℕ
deriving DecidableEq, Repr

def initG : GState := ⟨.str "", .str "", [], [], 0⟩

/-- One yield of `get_gene_count`: `(gene, counts_dict[gene], read_events)`. -/
abbrev GOutput := PosId × List (String × ℕ) × List (String × ℕ)

/-- `counts_dict[gene][umi]` lookup. -/
def gget (d : List (PosId × List (String × ℕ))) (g : PosId) (u : String) :
    Option ℕ :=
  match aget d g with
  | Option.none => Option.none
  | Option.some ud => aget ud u

/-- `counts_dict[gene][umi]["count"] = n` with `defaultdict` auto-creation. -/
def gset (d : List (PosId × List (String × ℕ))) (g : PosId) (u : String)
    (n : ℕ) : List (PosId × List (String × ℕ)) :=
  let ud := (aget d g).getD []
  aset d g (aset ud u n)

/-- Processing of one read by the `get_gene_count` loop body (lines 485-534).
The flush loop reassigns the leaked loop variable `gene` to the last key of
the flushed dictionary when that dictionary is non-empty. -/
def processGene (cfg : GConfig) (rand : ℕ → ℚ) (st : GState) (read : Read) :
    List GOutput × Option GState :=
  if read.is_read2 then ([], Option.some st)
  else
    let st := { st with read_events := cincr st.read_events "Input Reads" }
    if read.is_unmapped then
      ([], Option.some { st with
        read_events := cincr st.read_events "Skipped - Unmapped Reads" })
    else
      let st :=
        if cfg.paired then
          { st with read_events := cincr st.read_events "Paired Reads" }
        else st
      let subsetDrop :=
        match cfg.subset with
        | Option.some s =>
          if s = 0 then Option.none
          else Option.some (decide (rand st.rix ≥ s))
        | Option.none => Option.none
      match subsetDrop with
      | Option.some true =>
        ([], Option.some { st with
          read_events := cincr st.read_events "Skipped - Randomly excluded",
          rix := st.rix + 1 })
      | other =>
        let st := if other = Option.some false then { st with rix := st.rix + 1 } else st
        if cfg.quality_threshold ≠ 0 ∧ read.mapq < cfg.quality_threshold then
          ([], Option.some { st with
            read_events := cincr st.read_events "Skipped - < MAPQ threshold" })
        else
          let geneStep : Option (GState × Bool) :=
            if cfg.per_contig then
              Option.some ({ st with gene := .int read.tid }, false)
            else if optTruthy cfg.gene_tag then
              match read.getTag ((cfg.gene_tag).getD "") with
              | Option.none => Option.none
              | Option.some (.int _) => Option.none
              | Option.some (.str g) =>
                if cfg.skip_regex g then
                  Option.some ({ st with
                    read_events := cincr st.read_events
                      "Skipped - matches --skip-tags-regex" }, true)
                else Option.some ({ st with gene := .str g }, false)
            else Option.some (st, false)
          match geneStep with
          | Option.none => ([], Option.none)
          | Option.some (st, true) => ([], Option.some st)
          | Option.some (st, false) =>
            let (outs, st) :=
              if ¬ (PosId.int read.tid = st.last_chr) then
                (st.counts_dict.map (fun kv => (kv.1, kv.2, st.read_events)),
                 { st with
                    gene := match st.counts_dict.getLast? with
                            | Option.some kv => kv.1
                            | Option.none => st.gene,
                    last_chr := .int read.tid,
                    counts_dict := [] })
              else ([], st)
            let umi := cfg.umi_getter read
            let n := match gget st.counts_dict st.gene umi with
                     | Option.some c => c + 1
                     | Option.none => 1
            (outs, Option.some { st with
              counts_dict := gset st.counts_dict st.gene umi n })

/-- The `get_gene_count` loop over a list of reads, from state `st`. -/
def runGene (cfg : GConfig) (rand : ℕ → ℚ) (st : GState) :
    List Read → List GOutput × Option GState
  | [] => ([], Option.some st)
  | r :: rs =>
    match processGene cfg rand st r with
    | (outs, Option.some st') =>
      let rest := runGene cfg rand st' rs
      (outs ++ rest.1, rest.2)
    | (outs, Option.none) => (outs, Option.none)

/-- `get_gene_count(inreads, ...)`: all yields plus the final per-gene flush
(lines 537-538), and the final state. -/
def getGeneCount (cfg : GConfig) (rand : ℕ → ℚ) (reads : List Read) :
    List GOutput × Option GState :=
  match runGene cfg rand initG reads with
  | (outs, Option.some st) =>
    (outs ++ st.counts_dict.map (fun kv => (kv.1, kv.2, st.read_events)),
     Option.some st)
  | (outs, Option.none) => (outs, Option.none)

/-! ### `TwoPassPairWriter` -/

/-- The key a scanned record is matched by:
`(read.query_name, read.reference_name, read.reference_start)`. -/
def keyOf (r : Read) : String × String × ℤ :=
  (r.qname, r.reference_name, r.pos)

/-- The pending-mate key recorded by `write`:
`(read.query_name, read.next_reference_name, read.next_reference_start)`. -/
def mateKey (r : Read) : String × String × ℤ :=
  (r.qname, r.next_reference_name, r.next_reference_start)

/-- State of a `TwoPassPairWriter`: tracked contig, pending-mate key set
(`self.read1s`, insertion ordered), and the reads written to `outfile`. -/
structure WState where
  chrom : Option String
  read1s : List (String × String × ℤ)
  out : List Read
deriving DecidableEq, Repr

def initW : WState := ⟨Option.none, [], []⟩

/-- `set.add`. -/
def addKey (ks : List (String × String × ℤ)) (k : String × String × ℤ) :
    List (String × String × ℤ) :=
  if ks.contains k then ks else ks ++ [k]

/-- `set.remove`. -/
def removeKey (ks : List (String × String × ℤ)) (k : String × String × ℤ) :
    List (String × String × ℤ) :=
  ks.filter (fun k' => ¬ k' = k)

/-- `infile.fetch(reference=chrom)`: the records aligned to `chrom`; with
`reference=None` pysam iterates every mapped record of the file. -/
def fetchRef (infile : List Read) (chrom : Option String) : List Read :=
  match chrom with
  | Option.some c => infile.filter (fun r => r.reference_name = c)
  | Option.none => infile.filter (fun r => ¬ r.is_unmapped)

/-- One record of the `write_mates` scan (lines 111-118): skip unmapped,
mate-unmapped and read1 records; write and unregister a pending-key match. -/
def scanStep (st : WState) (r : Read) : WState :=
  if r.is_unmapped || r.mate_is_unmapped || r.is_read1 then st
  else if st.read1s.contains (keyOf r) then
    { st with out := st.out ++ [r], read1s := removeKey st.read1s (keyOf r) }
  else st

/-- `TwoPassPairWriter.write_mates`: scan the tracked contig. -/
def writeMates (infile : List Read) (st : WState) : WState :=
  (fetchRef infile st.chrom).foldl scanStep st

/-- `TwoPassPairWriter.write(read, unmapped=False)`. -/
def writeRead (infile : List Read) (st : WState) (read : Read)
    (unmapped : Bool) : WState :=
  if unmapped || read.mate_is_unmapped then
    { st with out := st.out ++ [read] }
  else
    let st :=
      if ¬ (st.chrom = Option.some read.reference_name) then
        { writeMates infile st with chrom := Option.some read.reference_name }
      else st
    { st with
        read1s := addKey st.read1s (mateKey read),
        out := st.out ++ [read] }

/-- One record of the final `close` scan (lines 131-141): skip only unmapped
records; write a pending-key match and count it as found. -/
def closeStep (acc : WState × ℕ) (r : Read) : WState × ℕ :=
  if r.is_unmapped then acc
  else if acc.1.read1s.contains (keyOf r) then
    ({ acc.1 with
        out := acc.1.out ++ [r],
        read1s := removeKey acc.1.read1s (keyOf r) }, acc.2 + 1)
  else acc

/-- `TwoPassPairWriter.close()`: flush the final contig, then re-scan the
whole source (`fetch(until_eof=True)` iterates every record).  Returns the
final state and the number of mates found by the final scan; the
pending keys still present afterwards are the "mates never found". -/
def closeW (infile : List Read) (st : WState) : WState × ℕ :=
  infile.foldl closeStep (writeMates infile st, 0)

/-- All `write` calls in order, from a fresh writer. -/
def runWriter (infile : List Read) (writes : List Read) : WState :=
  writes.foldl (fun st w => writeRead infile st w false) initW

/-! ### `random_read_generator.fill` -/

/-- Python division, raising `ZeroDivisionError` exactly when it is
executed with a zero denominator. -/
def divQ (a b : ℚ) : Except PyErr ℚ :=
  if b = 0 then .error .zeroDivisionError else .ok (a / b)

/-- The state built by `random_read_generator.fill`. -/
structure Fill where
  umis : List (String × ℕ)
  total_umis : ℕ
  frequency2umis : List (ℚ × List String)
  frequency_counter : List (ℕ × ℕ)
  frequency_prob : List ℚ
deriving DecidableEq, Repr

/-- The loop `for read in self.inbam: ... self.umis[umi_getter(read)] += 1`
restricted by the unmapped/read2 skips. -/
def fillRetained (reads : List Read) : List Read :=
  reads.filter (fun r => ¬ r.is_unmapped ∧ ¬ r.is_read2)

/-- The `self.umis` counter after the counting loop. -/
def fillUmis (umi_getter : Read → String) (reads : List Read) :
    List (String × ℕ) :=
  (fillRetained reads).foldl (fun c r => cincr c (umi_getter r)) []

/-- `total_umis = sum(self.umis_counter.values())`. -/
def fillTotal (umi_getter : Read → String) (reads : List Read) : ℕ :=
  ((fillUmis umi_getter reads).map (·.2)).sum

/-- `frequency_counter = collections.Counter(self.umis_counter.values())`. -/
def fillFC (umi_getter : Read → String) (reads : List Read) : List (ℕ × ℕ) :=
  ((fillUmis umi_getter reads).map (·.2)).foldl (fun c v => cincr c v) []

/-- One iteration of the `frequency2umis` loop:
`self.frequency2umis[freq+0.0/total_umis].append(observed_umi)`. -/
def fillF2uBody (total : ℕ) (acc : List (ℚ × List String)) (kv : String × ℕ) :
    Except PyErr (List (ℚ × List String)) := do
  let z ← divQ 0 (total : ℚ)
  let k : ℚ := (kv.2 : ℚ) + z
  match aget acc k with
  | Option.some l => pure (aset acc k (l ++ [kv.1]))
  | Option.none => pure (aset acc k [kv.1])

/-- One element of the `frequency_prob` comprehension:
`(float(x)/total_umis)*y`. -/
def fillProbBody (total : ℕ) (xy : ℕ × ℕ) : Except PyErr ℚ := do
  let d ← divQ (xy.1 : ℚ) (total : ℚ)
  pure (d * (xy.2 : ℚ))

/-- `random_read_generator.fill` over the fetched records: count barcodes of
mapped non-read2 records, then derive the frequency classes and their
probability weights `(float(x)/total_umis)*y`.  Every division is performed
(and can raise) only when the enclosing loop or comprehension actually
iterates, exactly as in Python; `freq+0.0/total_umis` parses as
`freq + (0.0/total_umis)`. -/
def fillE (umi_getter : Read → String) (reads : List Read) :
    Except PyErr Fill := do
  let umis := fillUmis umi_getter reads
  let total := fillTotal umi_getter reads
  let f2u ← umis.foldlM (fillF2uBody total) []
  let fc := fillFC umi_getter reads
  let prob ← fc.mapM (fillProbBody total)
  .ok ⟨umis, total, f2u, fc, prob⟩

/-! ### Finite distributions for the reservoir tie-break

`random.random()` draws uniformly from `[0,1)`, so the reservoir test
`random.random() < 1/k` succeeds with probability `1/k`.  A run over a
bucket of exactly tied candidates is therefore a finite binary decision
tree; `resRun` lists its leaves with their weights. -/

/-- A finite weighted list of outcomes. -/
abbrev FDist (α : Type) : Type := List (ℚ × α)

/-- Scale every weight. -/
def scaleD {α : Type} (p : ℚ) (d : FDist α) : FDist α :=
  d.map (fun qa => (p * qa.1, qa.2))

/-- Total weight assigned to the outcome `x`. -/
def Pr {α : Type} [DecidableEq α] (d : FDist α) (x : α) : ℚ :=
  (d.map (fun qa => if qa.2 = x then qa.1 else 0)).sum

/-- The outcome distribution of the exact-tie reservoir loop of
`get_bundles` over a bucket whose representative is `rep` with tie counter
`k`, fed the tied challengers `cs` in order: each challenger runs the
fall-through step `selectRep` with `read_counts` at `k`, i.e. it replaces the
representative when the draw is below `1/(k+1)` - an event of probability
`1/(k+1)` - and the tie counter becomes `k+1` either way. -/
def resRun {α : Type} (k : ℕ) (rep : α) : List α → FDist α
  | [] => [(1, rep)]
  | c :: cs =>
    let p : ℚ := 1 / ((k : ℚ) + 1)
    scaleD p (resRun (k + 1) c cs) ++ scaleD (1 - p) (resRun (k + 1) rep cs)

/-! ### Association-list lemmas -/

theorem aget_cons {K V : Type} [DecidableEq K] (kv : K × V) (d : List (K × V))
    (k : K) : aget (kv :: d) k = if kv.1 = k then Option.some kv.2 else aget d k := by
  by_cases h : kv.1 = k <;> simp [aget, List.find?_cons, h]

theorem aset_cons {K V : Type} [DecidableEq K] (kv : K × V) (d : List (K × V))
    (k : K) (v : V) :
    aset (kv :: d) k v = if kv.1 = k then (k, v) :: d else kv :: aset d k v := rfl

theorem aget_aset_self {K V : Type} [DecidableEq K] (d : List (K × V)) (k : K)
    (v : V) : aget (aset d k v) k = Option.some v := by
  induction d with
  | nil => simp [aset, aget_cons]
  | cons kv rest ih =>
    rw [aset_cons]
    by_cases h : kv.1 = k
    · rw [if_pos h, aget_cons]
      simp
    · rw [if_neg h, aget_cons, if_neg h]
      exact ih

theorem aget_aset_ne {K V : Type} [DecidableEq K] (d : List (K × V))
    (k k' : K) (v : V) (h : k ≠ k') : aget (aset d k' v) k = aget d k := by
  induction d with
  | nil =>
    rw [show aset ([] : List (K × V)) k' v = [(k', v)] from rfl, aget_cons]
    simp [aget, Ne.symm h]
  | cons kv rest ih =>
    rw [aset_cons]
    by_cases hk : kv.1 = k'
    · rw [if_pos hk, aget_cons, aget_cons]
      have h1 : ¬ ((k', v).1 = k) := by simpa using Ne.symm h
      rw [if_neg h1, if_neg (by rw [hk]; exact Ne.symm h)]
    · rw [if_neg hk, aget_cons, aget_cons]
      by_cases hk2 : kv.1 = k
      · rw [if_pos hk2, if_pos hk2]
      · rw [if_neg hk2, if_neg hk2]
        exact ih

theorem mem_aset {K V : Type} [DecidableEq K] {d : List (K × V)} {k : K}
    {v : V} {kv : K × V} (h : kv ∈ aset d k v) : kv = (k, v) ∨ kv ∈ d := by
  induction d with
  | nil => simpa [aset] using h
  | cons kv0 rest ih =>
    rw [aset_cons] at h
    by_cases hk : kv0.1 = k
    · rw [if_pos hk] at h
      rcases List.mem_cons.mp h with h' | h'
      · exact Or.inl h'
      · exact Or.inr (List.mem_cons_of_mem _ h')
    · rw [if_neg hk] at h
      rcases List.mem_cons.mp h with h' | h'
      · exact Or.inr (by simp [h'])
      · rcases ih h' with h'' | h''
        · exact Or.inl h''
        · exact Or.inr (List.mem_cons_of_mem _ h'')

theorem aget_mem {K V : Type} [DecidableEq K] {d : List (K × V)} {k : K}
    {v : V} (h : aget d k = Option.some v) : (k, v) ∈ d := by
  induction d with
  | nil => simp [aget] at h
  | cons kv rest ih =>
    rw [aget_cons] at h
    by_cases hk : kv.1 = k
    · rw [if_pos hk] at h
      have : kv = (k, v) := by
        obtain ⟨k1, v1⟩ := kv
        simp only at hk
        simp only [Option.some.injEq] at h
        simp [hk, h]
      exact this ▸ List.mem_cons_self _ _
    · rw [if_neg hk] at h
      exact List.mem_cons_of_mem _ (ih h)

theorem aget_some_mem_keys {K V : Type} [DecidableEq K] {d : List (K × V)}
    {k : K} {v : V} (h : aget d k = Option.some v) : k ∈ d.map (·.1) :=
  List.mem_map.mpr ⟨(k, v), aget_mem h, rfl⟩

theorem cget_cincr_self {K : Type} [DecidableEq K] (c : List (K × ℕ)) (k : K) :
    cget (cincr c k) k = cget c k + 1 := by
  unfold cincr cget
  cases h : aget c k with
  | none => simp [h, aget_aset_self]
  | some n => simp [h, aget_aset_self]

theorem cget_cincr_ne {K : Type} [DecidableEq K] (c : List (K × ℕ))
    (k k' : K) (h : k ≠ k') : cget (cincr c k') k = cget c k := by
  unfold cincr cget
  cases h' : aget c k' with
  | none => simp [aget_aset_ne _ _ _ _ h]
  | some n => simp [aget_aset_ne _ _ _ _ h]

/-! ### C8: barcode extraction failure modes -/

theorem pySplitGo_ne_nil (sep : List Char) (fuel : ℕ) (s : List Char) :
    pySplitGo sep fuel s ≠ [] := by
  cases fuel with
  | zero => simp [pySplitGo]
  | succ n =>
    unfold pySplitGo
    cases findOcc sep s <;> simp

/-- A read whose name contains no `_` separator and which carries no tags. -/
def c8read : Read :=
  { qname := "ACGTreadname", is_read1 := true, is_read2 := false,
    is_unmapped := false, mate_is_unmapped := false, is_reverse := false,
    mapq := 30, tid := 0, pos := 100, aend := 150, cigar := [(0, 50)],
    tlen := 0, query_length := 50, tags := [], reference_name := "chr1",
    next_reference_name := "chr1", next_reference_start := 0 }

/-- C8 counterexample: the separator `_` does not occur in the read name,
yet `get_umi_read_id` succeeds (returns the whole name) instead of raising
the descriptive `ValueError`; and with the `RX` tag absent, `get_umi_tag`
fails with the uncaught `KeyError` of the tag lookup, not with the
descriptive `ValueError`. -/
theorem C8_counterexample :
    findOcc "_".toList c8read.qname.toList = Option.none ∧
    get_umi_read_id c8read "_" = Except.ok "ACGTreadname" ∧
    Read.getTag c8read "RX" = Option.none ∧
    get_umi_tag c8read "RX" = Except.error PyErr.keyError ∧
    PyErr.keyError ≠ PyErr.valueError
      "Could not extract UMI from the read tags, pleasecheck UMI is encoded in the read tag" :=
  ⟨by decide, by rfl, by decide, by rfl, by decide⟩

theorem umi_read_id_eval (read : Read) (sep : String) (parts : List String)
    (hs : pySplit read.qname sep = Except.ok parts) (l : String)
    (hl : parts.getLast? = Option.some l) :
    get_umi_read_id read sep = Except.ok l := by
  have h1 : get_umi_read_id read sep =
      (match (match parts.getLast? with
        | Option.some last => (Except.ok last : Except PyErr String)
        | Option.none => Except.error PyErr.indexError) with
      | Except.error PyErr.indexError => Except.error (PyErr.valueError
          "Could not extract UMI from the read ID, pleasecheck UMI is encoded in the read name")
      | other => other) := by
    unfold get_umi_read_id
    rw [hs]
    rfl
  rw [h1, hl]

/-- C8 (amended): the `except IndexError` handlers are dead code.
`get_umi_read_id` never raises for a non-empty separator; in particular,
when the separator does not occur in the read name it returns the whole
name rather than failing.  `get_umi_tag` does fail when the tag is absent,
but with the uncaught `KeyError` of the tag lookup, not with its
descriptive `ValueError`. -/
theorem C8_extraction_errors :
    (∀ (read : Read) (sep : String), sep ≠ "" →
      ∃ s, get_umi_read_id read sep = Except.ok s) ∧
    (∀ (read : Read) (sep : String), sep ≠ "" →
      findOcc sep.toList read.qname.toList = Option.none →
      get_umi_read_id read sep = Except.ok read.qname) ∧
    (∀ (read : Read) (tag : String), read.getTag tag = Option.none →
      get_umi_tag read tag = Except.error PyErr.keyError) := by
  refine ⟨?_, ?_, ?_⟩
  · intro read sep hsep
    have hsplit : pySplit read.qname sep =
        .ok ((pySplitGo sep.toList (read.qname.length + 1) read.qname.toList).map
          List.asString) := by
      unfold pySplit
      rw [if_neg hsep]
    have hne : (pySplitGo sep.toList (read.qname.length + 1) read.qname.toList).map
        List.asString ≠ [] := by
      simpa using pySplitGo_ne_nil sep.toList _ read.qname.toList
    obtain ⟨l, hl⟩ := Option.isSome_iff_exists.mp (List.getLast?_isSome.mpr hne)
    exact ⟨l, umi_read_id_eval read sep _ hsplit l hl⟩
  · intro read sep hsep hocc
    have hsplit : pySplit read.qname sep = .ok [read.qname] := by
      unfold pySplit
      rw [if_neg hsep]
      unfold pySplitGo
      rw [hocc]
      exact congrArg (fun s => Except.ok [s]) (String.asString_toList read.qname)
    exact umi_read_id_eval read sep _ hsplit read.qname rfl
  · intro read tag htag
    unfold get_umi_tag
    rw [htag]

/-- C8 witness: the amended behaviour at the concrete read `c8read`. -/
theorem C8_extraction_errors_witness :
    get_umi_read_id c8read "_" = Except.ok c8read.qname ∧
    get_umi_tag c8read "RX" = Except.error PyErr.keyError :=
  ⟨C8_extraction_errors.2.1 c8read "_" (by decide) (by decide),
   C8_extraction_errors.2.2 c8read "RX" (by decide)⟩

/-! ### C9: `random_read_generator.fill` -/

theorem aset_ne_nil {K V : Type} [DecidableEq K] (d : List (K × V)) (k : K)
    (v : V) : aset d k v ≠ [] := by
  cases d with
  | nil => simp [aset]
  | cons kv rest =>
    rw [aset_cons]
    by_cases h : kv.1 = k <;> simp [h]

theorem cincr_ne_nil {K : Type} [DecidableEq K] (c : List (K × ℕ)) (k : K) :
    cincr c k ≠ [] := by
  unfold cincr
  cases aget c k <;> exact aset_ne_nil _ _ _

theorem foldl_cincr_ne_nil {K β : Type} [DecidableEq K] (f : β → K) :
    ∀ (l : List β) (c : List (K × ℕ)), c ≠ [] →
    l.foldl (fun c x => cincr c (f x)) c ≠ [] := by
  intro l
  induction l with
  | nil => intro c hc; simpa using hc
  | cons x xs ih =>
    intro c _
    simpa using ih (cincr c (f x)) (cincr_ne_nil c (f x))

theorem foldl_cincr_pos {K β : Type} [DecidableEq K] (f : β → K) :
    ∀ (l : List β) (c : List (K × ℕ)), (∀ kv ∈ c, 1 ≤ kv.2) →
    ∀ kv ∈ l.foldl (fun c x => cincr c (f x)) c, 1 ≤ kv.2 := by
  intro l
  induction l with
  | nil => intro c hc; simpa using hc
  | cons x xs ih =>
    intro c hc
    refine ih (cincr c (f x)) ?_
    intro kv hkv
    unfold cincr at hkv
    cases hg : aget c (f x) with
    | none =>
      rw [hg] at hkv
      rcases mem_aset hkv with h | h
      · simp [h]
      · exact hc kv h
    | some n =>
      rw [hg] at hkv
      rcases mem_aset hkv with h | h
      · simp [h]
      · exact hc kv h

theorem sumFY_aset_some {K : Type} [DecidableEq K] (g : K → ℕ) :
    ∀ (c : List (K × ℕ)) (k : K) (n : ℕ), aget c k = Option.some n →
    ((aset c k (n + 1)).map (fun xy => g xy.1 * xy.2)).sum =
      (c.map (fun xy => g xy.1 * xy.2)).sum + g k := by
  intro c
  induction c with
  | nil => intro k n h; simp [aget] at h
  | cons kv rest ih =>
    intro k n h
    rw [aget_cons] at h
    rw [aset_cons]
    by_cases hk : kv.1 = k
    · rw [if_pos hk] at h ⊢
      simp only [Option.some.injEq] at h
      simp [List.map_cons, ← hk, h]
      ring
    · rw [if_neg hk] at h ⊢
      simp only [List.map_cons, List.sum_cons, ih k n h]
      ring

theorem sumFY_aset_none {K : Type} [DecidableEq K] (g : K → ℕ) :
    ∀ (c : List (K × ℕ)) (k : K), aget c k = Option.none →
    ((aset c k 1).map (fun xy => g xy.1 * xy.2)).sum =
      (c.map (fun xy => g xy.1 * xy.2)).sum + g k := by
  intro c
  induction c with
  | nil => intro k _; simp [aset]
  | cons kv rest ih =>
    intro k h
    rw [aget_cons] at h
    by_cases hk : kv.1 = k
    · rw [if_pos hk] at h; simp at h
    · rw [if_neg hk] at h
      rw [aset_cons, if_neg hk]
      simp only [List.map_cons, List.sum_cons, ih k h]
      ring

theorem sumFY_cincr {K : Type} [DecidableEq K] (g : K → ℕ) (c : List (K × ℕ))
    (k : K) :
    ((cincr c k).map (fun xy => g xy.1 * xy.2)).sum =
      (c.map (fun xy => g xy.1 * xy.2)).sum + g k := by
  unfold cincr
  cases h : aget c k with
  | none => exact sumFY_aset_none g c k h
  | some n => exact sumFY_aset_some g c k n h

theorem sumFY_foldl (l : List ℕ) :
    ∀ (c : List (ℕ × ℕ)),
    ((l.foldl (fun c v => cincr c v) c).map (fun xy => xy.1 * xy.2)).sum =
      (c.map (fun xy => xy.1 * xy.2)).sum + l.sum := by
  induction l with
  | nil => intro c; simp
  | cons x xs ih =>
    intro c
    simp only [List.foldl_cons, List.sum_cons, ih (cincr c x)]
    rw [show ((cincr c x).map (fun xy => xy.1 * xy.2)).sum =
      (c.map (fun xy => xy.1 * xy.2)).sum + x from sumFY_cincr id c x]
    ring

theorem except_foldlM_eq {ε α β : Type} (body : α → β → Except ε α)
    (g : α → β → α) (h : ∀ acc x, body acc x = Except.ok (g acc x)) :
    ∀ (l : List β) (acc : α), l.foldlM body acc = Except.ok (l.foldl g acc) := by
  intro l
  induction l with
  | nil => intro acc; rfl
  | cons x xs ih =>
    intro acc
    rw [List.foldlM_cons, h acc x]
    show xs.foldlM body (g acc x) = _
    rw [ih (g acc x), List.foldl_cons]

theorem except_mapM_eq {ε α β : Type} (f : α → Except ε β) (g : α → β)
    (h : ∀ x, f x = Except.ok (g x)) :
    ∀ (l : List α), l.mapM f = Except.ok (l.map g) := by
  intro l
  induction l with
  | nil => rfl
  | cons x xs ih =>
    rw [List.mapM_cons, h x]
    show (do let bs ← xs.mapM f; pure (g x :: bs) : Except ε (List β)) = _
    rw [ih]
    rfl

/-- The pure value computed by one `frequency2umis` iteration when the
division is defined. -/
def fillF2uStep (total : ℕ) (acc : List (ℚ × List String))
    (kv : String × ℕ) : List (ℚ × List String) :=
  let k : ℚ := (kv.2 : ℚ) + 0 / (total : ℚ)
  match aget acc k with
  | Option.some l => aset acc k (l ++ [kv.1])
  | Option.none => aset acc k [kv.1]

theorem fillF2uBody_ok (total : ℕ) (hT : ((total : ℕ) : ℚ) ≠ 0)
    (acc : List (ℚ × List String)) (kv : String × ℕ) :
    fillF2uBody total acc kv = Except.ok (fillF2uStep total acc kv) := by
  unfold fillF2uBody divQ
  rw [if_neg hT]
  show (match aget acc ((kv.2 : ℚ) + 0 / (total : ℚ)) with
      | Option.some l => (pure (aset acc ((kv.2 : ℚ) + 0 / (total : ℚ)) (l ++ [kv.1])) :
          Except PyErr (List (ℚ × List String)))
      | Option.none => pure (aset acc ((kv.2 : ℚ) + 0 / (total : ℚ)) [kv.1])) =
    Except.ok (fillF2uStep total acc kv)
  unfold fillF2uStep
  cases h : aget acc ((kv.2 : ℚ) + 0 / (total : ℚ)) <;> simp only [h] <;> rfl

theorem fillProbBody_ok (total : ℕ) (hT : ((total : ℕ) : ℚ) ≠ 0)
    (xy : ℕ × ℕ) :
    fillProbBody total xy =
      Except.ok (((xy.1 : ℚ) / (total : ℚ)) * (xy.2 : ℚ)) := by
  unfold fillProbBody divQ
  rw [if_neg hT]
  rfl

theorem fillE_eval (g : Read → String) (reads : List Read)
    (hT : fillTotal g reads ≠ 0) :
    fillE g reads = Except.ok
      { umis := fillUmis g reads,
        total_umis := fillTotal g reads,
        frequency2umis :=
          (fillUmis g reads).foldl (fillF2uStep (fillTotal g reads)) [],
        frequency_counter := fillFC g reads,
        frequency_prob := (fillFC g reads).map
          (fun xy => ((xy.1 : ℚ) / (fillTotal g reads : ℚ)) * (xy.2 : ℚ)) } := by
  have hc : ((fillTotal g reads : ℕ) : ℚ) ≠ 0 := Nat.cast_ne_zero.mpr hT
  have h1 : ∀ (l : List (String × ℕ)) (acc : List (ℚ × List String)),
      l.foldlM (fillF2uBody (fillTotal g reads)) acc =
        Except.ok (l.foldl (fillF2uStep (fillTotal g reads)) acc) :=
    except_foldlM_eq _ _ (fillF2uBody_ok (fillTotal g reads) hc)
  have h2 : ∀ (l : List (ℕ × ℕ)),
      l.mapM (fillProbBody (fillTotal g reads)) =
        Except.ok (l.map
          (fun xy => ((xy.1 : ℚ) / (fillTotal g reads : ℚ)) * (xy.2 : ℚ))) :=
    except_mapM_eq _ _ (fillProbBody_ok (fillTotal g reads) hc)
  unfold fillE
  simp only [h1, h2]
  rfl

theorem fillE_empty (g : Read → String) (reads : List Read)
    (hr : fillRetained reads = []) :
    fillE g reads = Except.ok ⟨[], 0, [], [], []⟩ := by
  have hu : fillUmis g reads = [] := by
    unfold fillUmis
    rw [hr]
    rfl
  have ht : fillTotal g reads = 0 := by
    unfold fillTotal
    rw [hu]
    rfl
  have hfc : fillFC g reads = [] := by
    unfold fillFC
    rw [hu]
    rfl
  unfold fillE
  rw [hu, ht, hfc]
  rfl

theorem fillTotal_pos (g : Read → String) (reads : List Read)
    (hr : fillRetained reads ≠ []) : fillTotal g reads ≠ 0 := by
  have hnn : fillUmis g reads ≠ [] := by
    unfold fillUmis
    cases h : fillRetained reads with
    | nil => exact absurd h hr
    | cons r rest =>
      rw [List.foldl_cons]
      exact foldl_cincr_ne_nil g rest _ (cincr_ne_nil [] (g r))
  cases hu : fillUmis g reads with
  | nil => exact absurd hu hnn
  | cons kv rest2 =>
    have hkv : 1 ≤ kv.2 := by
      refine foldl_cincr_pos g (fillRetained reads) [] (by simp) kv ?_
      have : kv ∈ fillUmis g reads := by
        rw [hu]; exact List.mem_cons_self _ _
      simpa [fillUmis] using this
    unfold fillTotal
    rw [hu]
    simp only [List.map_cons, List.sum_cons]
    omega

/-- C9 counterexample: over a source with zero mapped read1 records,
`random_read_generator.fill` completes without any division-by-zero error
(every division sits inside a loop over an empty collection), returning
empty frequency classes and weights. -/
theorem C9_counterexample :
    fillE (fun r => r.qname) [] = Except.ok ⟨[], 0, [], [], []⟩ ∧
    fillE (fun r => r.qname) [] ≠ Except.error PyErr.zeroDivisionError := by
  have h := fillE_empty (fun r => r.qname) [] (by rfl)
  exact ⟨h, by rw [h]; intro hcon; cases hcon⟩

/-- C9 (amended): `fill` never raises - in particular it does not fail with
a division-by-zero on a source with zero mapped read1 records, where it just
produces empty frequency classes and weights; and whenever at least one
record is retained, the class weights are exactly
`(class-frequency / total) * (#barcodes in class)` and they sum to 1. -/
theorem C9_fill_weights :
    (∀ (g : Read → String) (reads : List Read),
      ∃ f, fillE g reads = Except.ok f) ∧
    (∀ (g : Read → String) (reads : List Read) (f : Fill),
      fillE g reads = Except.ok f →
      fillRetained reads ≠ [] →
      f.frequency_prob = f.frequency_counter.map
        (fun xy => ((xy.1 : ℚ) / (f.total_umis : ℚ)) * (xy.2 : ℚ)) ∧
      f.frequency_prob.sum = 1) := by
  constructor
  · intro g reads
    by_cases hr : fillRetained reads = []
    · exact ⟨_, fillE_empty g reads hr⟩
    · exact ⟨_, fillE_eval g reads (fillTotal_pos g reads hr)⟩
  · intro g reads f hf hr
    have hT : fillTotal g reads ≠ 0 := fillTotal_pos g reads hr
    have hTc : ((fillTotal g reads : ℕ) : ℚ) ≠ 0 := Nat.cast_ne_zero.mpr hT
    rw [fillE_eval g reads hT] at hf
    have hfeq := (Except.ok.injEq _ _).mp hf.symm
    subst hfeq
    refine ⟨rfl, ?_⟩
    show ((fillFC g reads).map
      (fun xy => ((xy.1 : ℚ) / (fillTotal g reads : ℚ)) * (xy.2 : ℚ))).sum = 1
    have hstep : ∀ xy ∈ fillFC g reads,
        ((xy.1 : ℚ) / (fillTotal g reads : ℚ)) * (xy.2 : ℚ) =
          ((xy.1 * xy.2 : ℕ) : ℚ) * (1 / (fillTotal g reads : ℚ)) := by
      intro xy _
      push_cast
      ring
    rw [List.map_congr_left hstep, List.sum_map_mul_right]
    have hsum : ((fillFC g reads).map
        (fun xy => (xy.1 * xy.2 : ℕ))).sum = fillTotal g reads := by
      unfold fillFC fillTotal
      simpa using sumFY_foldl ((fillUmis g reads).map (·.2)) []
    rw [show (fun xy : ℕ × ℕ => ((xy.1 * xy.2 : ℕ) : ℚ)) =
      (Nat.cast ∘ fun xy : ℕ × ℕ => xy.1 * xy.2) from rfl]
    rw [← List.map_map, ← Nat.cast_list_sum, hsum]
    field_simp

/-- C9 witness inputs: a one-read source and the fill state it produces. -/
def c9read : Read :=
  { qname := "AACC", is_read1 := true, is_read2 := false, is_unmapped := false,
    mate_is_unmapped := false, is_reverse := false, mapq := 30, tid := 0,
    pos := 10, aend := 60, cigar := [(0, 50)], tlen := 0, query_length := 50,
    tags := [], reference_name := "chr1", next_reference_name := "chr1",
    next_reference_start := 0 }

def c9fill : Fill := ⟨[("AACC", 1)], 1, [(1, ["AACC"])], [(1, 1)], [1]⟩

/-- C9 witness: the amended weight formula at the concrete one-read source. -/
theorem C9_fill_weights_witness :
    fillE (fun r => r.qname) [c9read] = Except.ok c9fill ∧
    c9fill.frequency_prob =
      c9fill.frequency_counter.map
        (fun xy => ((xy.1 : ℚ) / (c9fill.total_umis : ℚ)) * (xy.2 : ℚ)) ∧
    c9fill.frequency_prob.sum = 1 := by
  have hT : fillTotal (fun r => r.qname) [c9read] ≠ 0 := by decide
  have he := fillE_eval (fun r => r.qname) [c9read] hT
  have h1 : fillUmis (fun r => r.qname) [c9read] = [("AACC", 1)] := by decide
  have h2 : fillTotal (fun r => r.qname) [c9read] = 1 := by decide
  have h3 : fillFC (fun r => r.qname) [c9read] = [(1, 1)] := by decide
  have h4 : (fillUmis (fun r => r.qname) [c9read]).foldl
      (fillF2uStep (fillTotal (fun r => r.qname) [c9read])) [] =
        [((1 : ℚ), ["AACC"])] := by
    rw [h1, h2]
    show fillF2uStep 1 [] ("AACC", 1) = [((1 : ℚ), ["AACC"])]
    unfold fillF2uStep
    norm_num [aget, aset]
  have h5 : (fillFC (fun r => r.qname) [c9read]).map
      (fun xy => ((xy.1 : ℚ) / (fillTotal (fun r => r.qname) [c9read] : ℚ)) *
        (xy.2 : ℚ)) = [(1 : ℚ)] := by
    rw [h2, h3]
    norm_num
  have hfe : fillE (fun r => r.qname) [c9read] = Except.ok c9fill := by
    rw [he, h4, h5, h1, h2, h3]
    rfl
  refine ⟨hfe, ?_, ?_⟩
  · exact (C9_fill_weights.2 (fun r => r.qname) [c9read] c9fill hfe (by decide)).1
  · exact (C9_fill_weights.2 (fun r => r.qname) [c9read] c9fill hfe (by decide)).2

/-! ### Shared concrete read template -/

def baseRead : Read :=
  { qname := "q", is_read1 := true, is_read2 := false, is_unmapped := false,
    mate_is_unmapped := false, is_reverse := false, mapq := 30, tid := 0,
    pos := 100, aend := 150, cigar := [(0, 50)], tlen := 0, query_length := 50,
    tags := [], reference_name := "c1", next_reference_name := "c1",
    next_reference_start := 0 }

/-! ### C10 / C7: `TwoPassPairWriter` concrete input

`c7A` is a written read1 on contig `c1` whose mate lies at `(c2, 5)`;
`c7R` is another read1 record in the source whose own coordinates equal
`c7A`'s mate key; `c7M` is the true read2 mate. -/

def c7A : Read :=
  { baseRead with
    qname := "q", is_read1 := true, is_read2 := false,
    reference_name := "c1", pos := 0,
    next_reference_name := "c2", next_reference_start := 5 }

def c7R : Read :=
  { baseRead with
    qname := "q", is_read1 := true, is_read2 := false,
    reference_name := "c2", pos := 5,
    next_reference_name := "c1", next_reference_start := 0 }

def c7M : Read :=
  { baseRead with
    qname := "q", is_read1 := false, is_read2 := true,
    reference_name := "c2", pos := 5,
    next_reference_name := "c1", next_reference_start := 0 }

def c7infile : List Read := [c7A, c7R, c7M]

/-- C10: the contig-flush scan (`write_mates`) skips unmapped, mate-unmapped
and read1 records, while the final `close()` scan skips only unmapped
records; consequently, on the concrete source `c7infile`, `close()` writes
the read1 record `c7R` - whose `(query name, reference, position)` equals
the pending mate key of `c7A` - and counts it as the found mate, while the
true read2 record `c7M` is never written. -/
theorem C10_close_scan_asymmetry :
    (∀ (st : WState) (r : Read),
      (r.is_unmapped || r.mate_is_unmapped || r.is_read1) = true →
      scanStep st r = st) ∧
    (∀ (acc : WState × ℕ) (r : Read), r.is_unmapped = true →
      closeStep acc r = acc) ∧
    (∀ (acc : WState × ℕ) (r : Read), r.is_unmapped = false →
      acc.1.read1s.contains (keyOf r) = true →
      closeStep acc r =
        ({ acc.1 with
            out := acc.1.out ++ [r],
            read1s := removeKey acc.1.read1s (keyOf r) }, acc.2 + 1)) ∧
    ((closeW c7infile (runWriter c7infile [c7A])).1.out = [c7A, c7R] ∧
     (closeW c7infile (runWriter c7infile [c7A])).2 = 1 ∧
     (closeW c7infile (runWriter c7infile [c7A])).1.read1s = [] ∧
     c7R.is_read1 = true ∧ keyOf c7R = mateKey c7A ∧
     c7M.is_read2 = true ∧ keyOf c7M = mateKey c7A ∧
     c7M ∉ (closeW c7infile (runWriter c7infile [c7A])).1.out) := by
  refine ⟨?_, ?_, ?_, ?_⟩
  · intro st r h
    simp [scanStep, h]
  · intro acc r h
    simp [closeStep, h]
  · intro acc r h1 h2
    unfold closeStep
    rw [if_neg (by simp [h1]), if_pos h2]
  · refine ⟨by decide, by decide, by decide, by decide, by decide,
      by decide, by decide, by decide⟩

/-- C10 witness: the three filter characterizations applied at a concrete
scan state holding `c7A`'s pending mate key. -/
def c10st : WState := ⟨Option.some "c1", [mateKey c7A], [c7A]⟩

theorem C10_close_scan_asymmetry_witness :
    scanStep c10st c7R = c10st ∧
    closeStep (c10st, 0) c7R =
      ({ c10st with
          out := c10st.out ++ [c7R],
          read1s := removeKey c10st.read1s (keyOf c7R) }, 1) := by
  refine ⟨C10_close_scan_asymmetry.1 c10st c7R (by decide), ?_⟩
  exact C10_close_scan_asymmetry.2.2.1 (c10st, 0) c7R (by decide) (by decide)

/-! ### C4: multimapping tie-break -/

/-- The fall-through reservoir step run immediately after a winning
multimapping branch reset the counter to 0: the counter ends at 1, a draw is
consumed, and the challenger (already installed) stays installed. -/
theorem reservoir_self (r : Read) (q : ℚ) : reservoir r 0 r q = (r, 1, true) := by
  show (if q < 1 / ((0 + 1 : ℕ) : ℚ) then (r, 0 + 1, true)
    else (r, 0 + 1, true)) = (r, 1, true)
  rw [ite_self]

def c4nh2 : Read := { baseRead with qname := "n2", tags := [("NH", TagVal.int 2)] }
def c4nh1 : Read := { baseRead with qname := "n1", tags := [("NH", TagVal.int 1)] }
def c4xtU : Read := { baseRead with qname := "xu", tags := [("XT", TagVal.str "U")] }
def c4xtV : Read := { baseRead with qname := "xv", tags := [("XT", TagVal.str "U")] }

/-- C4 counterexample: with detection method NH and an equal-MAPQ challenger
carrying the strictly lower tag value, the challenger wins but the tie
counter ends at 1 (not 0) and a random draw is consumed, because the winning
branch falls through to the reservoir step; and with detection method XT and
both reads flagged `"U"`, the representative is kept outright with the
counter untouched instead of falling through to the reservoir step. -/
theorem C4_counterexample :
    selectRep DetMethod.NH c4nh2 0 c4nh1 (1 / 2) =
      Option.some (c4nh1, 1, true) ∧
    (1 : ℕ) ≠ 0 ∧
    selectRep DetMethod.XT c4xtU 5 c4xtV (1 / 2) =
      Option.some (c4xtU, 5, false) ∧
    (5 : ℕ) ≠ 5 + 1 := by
  refine ⟨?_, by decide, ?_, by decide⟩
  · show selectRep DetMethod.NH c4nh2 0 c4nh1 (1 / 2) = Option.some (c4nh1, 1, true)
    unfold selectRep
    norm_num [c4nh2, c4nh1, baseRead, Read.optInt, Read.getTag, List.find?,
      reservoir_self]
  · show selectRep DetMethod.XT c4xtU 5 c4xtV (1 / 2) = Option.some (c4xtU, 5, false)
    unfold selectRep
    norm_num [c4xtU, c4xtV, baseRead, Read.optStr, Read.getTag, List.find?]

/-- C4 (amended): the exact equal-MAPQ tie-break behaviour.  NH/X0: a
strictly lower challenger tag wins, but through the fall-through the tie
counter is then set to 1 and a draw is consumed rather than the counter
staying at 0; a strictly higher challenger tag is discarded with the counter
untouched; equal tags run the reservoir step.  XT: a representative flagged
`"U"` is kept outright - even against a `"U"` challenger - with the counter
untouched; otherwise a `"U"` challenger wins through the same fall-through
(counter 1, draw consumed); otherwise the reservoir step runs. -/
theorem C4_multimapping_tiebreak :
    ∀ (rep read : Read) (rc : ℕ) (q : ℚ), rep.mapq = read.mapq →
    ((∀ rv cv, rep.optInt "NH" = Option.some rv →
        read.optInt "NH" = Option.some cv →
        selectRep DetMethod.NH rep rc read q =
          Option.some (if rv < cv then (rep, rc, false)
            else if cv < rv then (read, 1, true)
            else reservoir rep rc read q)) ∧
     (∀ rv cv, rep.optInt "X0" = Option.some rv →
        read.optInt "X0" = Option.some cv →
        selectRep DetMethod.X0 rep rc read q =
          Option.some (if rv < cv then (rep, rc, false)
            else if cv < rv then (read, 1, true)
            else reservoir rep rc read q)) ∧
     (∀ rx, rep.optStr "XT" = Option.some rx → rx = "U" →
        selectRep DetMethod.XT rep rc read q = Option.some (rep, rc, false)) ∧
     (∀ rx cx, rep.optStr "XT" = Option.some rx → rx ≠ "U" →
        read.optStr "XT" = Option.some cx →
        selectRep DetMethod.XT rep rc read q =
          Option.some (if cx = "U" then (read, 1, true)
            else reservoir rep rc read q))) := by
  intro rep read rc q hmapq
  have hgt : ¬ (rep.mapq > read.mapq) := by omega
  have hlt : ¬ (rep.mapq < read.mapq) := by omega
  refine ⟨?_, ?_, ?_, ?_⟩
  · intro rv cv hrv hcv
    unfold selectRep
    rw [if_neg hgt, if_neg hlt]
    simp only [hrv, hcv]
    rcases lt_trichotomy rv cv with h | h | h
    · rw [if_pos h, if_pos h]
    · rw [if_neg (by omega), if_neg (by omega), if_neg (by omega),
        if_neg (by omega)]
    · rw [if_neg (by omega), if_pos (by omega), if_neg (by omega),
        if_pos (by omega), reservoir_self]
  · intro rv cv hrv hcv
    unfold selectRep
    rw [if_neg hgt, if_neg hlt]
    simp only [hrv, hcv]
    rcases lt_trichotomy rv cv with h | h | h
    · rw [if_pos h, if_pos h]
    · rw [if_neg (by omega), if_neg (by omega), if_neg (by omega),
        if_neg (by omega)]
    · rw [if_neg (by omega), if_pos (by omega), if_neg (by omega),
        if_pos (by omega), reservoir_self]
  · intro rx hrx hU
    unfold selectRep
    rw [if_neg hgt, if_neg hlt]
    simp only [hrx]
    rw [if_pos hU]
  · intro rx cx hrx hne hcx
    unfold selectRep
    rw [if_neg hgt, if_neg hlt]
    simp only [hrx, hcx]
    rw [if_neg hne]
    by_cases hcU : cx = "U"
    · rw [if_pos hcU, if_pos hcU, reservoir_self]
    · rw [if_neg hcU, if_neg hcU]

/-- C4 witness: the amended tie-break at concrete reads. -/
theorem C4_multimapping_tiebreak_witness :
    selectRep DetMethod.NH c4nh1 3 c4nh2 (1 / 2) =
      Option.some (c4nh1, 3, false) ∧
    selectRep DetMethod.XT c4xtU 5 c4xtV (1 / 2) =
      Option.some (c4xtU, 5, false) := by
  constructor
  · have h := (C4_multimapping_tiebreak c4nh1 c4nh2 3 (1 / 2) (by decide)).1
      1 2 (by decide) (by decide)
    simpa using h
  · exact (C4_multimapping_tiebreak c4xtU c4xtV 5 (1 / 2) (by decide)).2.2.1
      "U" (by decide) rfl

/-! ### C6: `get_gene_count` gene assignment -/

instance : DecidableEq GOutput :=
  inferInstanceAs (DecidableEq (PosId × List (String × ℕ) × List (String × ℕ)))

instance : DecidableEq Output :=
  inferInstanceAs (DecidableEq (OutItem × List (String × ℕ)))

def c6r1 : Read := { baseRead with qname := "g1", tid := 0 }
def c6r2 : Read := { baseRead with qname := "g2", tid := 1 }

def c6cfg : GConfig := { per_contig := true, umi_getter := fun r => r.qname }

/-- C6: in per-contig mode, the first retained read after a contig change is
counted under the gene of the *previous* contig, because the flush loop
`for gene in counts_dict` leaks its loop variable into the module-level
`gene`: on input `[c6r1 (contig 0), c6r2 (contig 1)]`, `c6r2` is counted
under gene `PosId.int 0` (as both the second yield and the final state
show), while the gene derived from `c6r2` itself is `PosId.int 1`.  The
`ReadEventCounter` is never reset.  This contradicts the claim's (and the
docstring's) per-read gene assignment: the code is at fault. -/
theorem C6_gene_count_leak :
    getGeneCount c6cfg (fun _ => 0) [c6r1, c6r2] =
      ([(PosId.int 0, [("g1", 1)], [("Input Reads", 2)]),
        (PosId.int 0, [("g2", 1)], [("Input Reads", 2)])],
       Option.some ⟨PosId.int 1, PosId.int 0, [(PosId.int 0, [("g2", 1)])],
         [("Input Reads", 2)], 0⟩) ∧
    PosId.int 0 ≠ PosId.int 1 := by
  refine ⟨by decide, by decide⟩

/-! ### C5: positional windowing -/

theorem delKeys_all {V : Type} (d : List (PosId × V)) :
    delKeys d (d.map (·.1)) = [] := by
  unfold delKeys
  rw [List.filter_eq_nil_iff]
  intro kv hkv
  simp only [decide_not, Bool.not_eq_true', decide_eq_false_iff_not,
    Decidable.not_not]
  exact List.elem_iff.mpr (List.mem_map.mpr ⟨kv, hkv, rfl⟩)

theorem delKeys_filter {V : Type} (d : List (PosId × V)) (P : PosId → Bool) :
    delKeys d ((d.map (·.1)).filter P) =
      d.filter (fun kv => ¬ P kv.1 = true) := by
  unfold delKeys
  refine List.filter_congr ?_
  intro kv hkv
  have hmem : kv.1 ∈ d.map (·.1) := List.mem_map.mpr ⟨kv, hkv, rfl⟩
  by_cases hP : P kv.1 = true
  · have : kv.1 ∈ (d.map (·.1)).filter P := List.mem_filter.mpr ⟨hmem, hP⟩
    simp only [List.elem_iff.mpr this, hP]
  · have : kv.1 ∉ (d.map (·.1)).filter P := by
      intro hcon
      exact hP (List.mem_filter.mp hcon).2
    simp only [decide_not]
    rw [show ((d.map (·.1)).filter P).contains kv.1 = false by
      simpa using this]
    simp [hP]

theorem aget_filter_not {V : Type} (d : List (PosId × V)) (P : PosId → Bool)
    (p : PosId) (hP : P p = true) :
    aget (d.filter (fun kv => ¬ P kv.1 = true)) p = Option.none := by
  induction d with
  | nil => rfl
  | cons kv rest ih =>
    by_cases hk : (¬ P kv.1 = true : Prop)
    · rw [List.filter_cons_of_pos (by simpa using hk), aget_cons]
      have : ¬ (kv.1 = p) := fun hcon => hk (hcon ▸ hP)
      rw [if_neg this]
      exact ih
    · rw [List.filter_cons_of_neg (by simpa using hk)]
      exact ih

theorem emitBundles_mem (ev : List (String × ℕ)) (rd : ReadsDict)
    (ks : List PosId) (p : PosId) (kd : List (GKey × Bundle))
    (hk : p ∈ ks) (hg : aget rd p = Option.some kd) :
    ∀ kv ∈ kd, (OutItem.mapped kv.2, ev) ∈ emitBundles ev rd ks := by
  intro kv hkv
  unfold emitBundles
  refine List.mem_flatMap.mpr ⟨p, hk, ?_⟩
  rw [hg]
  exact List.mem_map.mpr ⟨kv, hkv, rfl⟩

/-- C5 (amended): the positional windowing of `get_bundles` with
`whole_contig` off.  (a) no flush happens unless the read's `start` exceeds
the watermark by more than 1000 or the contig changes; (b) on a same-contig
window overrun exactly the buffered groups whose coordinate key satisfies
`key ≤ start - 1000` are emitted and deleted, and the watermark becomes
`start`; (c) on a contig change every buffered group is emitted and deleted;
(d) hence after any flush triggered with `start > last_pos + 1000`, every
group at coordinate `≤ start - 1000` - in particular the group of any
earlier read whose derived coordinate `pos` lies that far back, e.g. a
forward-strand read more than 1000 units before `start` - is gone from the
live state, its bundles having been emitted, before the incoming read is
buffered.  (The original claim's stronger start-to-start consequence fails
for reverse-strand reads whose coordinate key `pos = aend` lies ahead of
their start; see the counterexample.) -/
theorem C5_windowing :
    ∀ (cfg : Config) (st : BState) (read : Read) (start : ℤ),
      cfg.whole_contig = false →
      ((¬ (start > st.last_pos + 1000) ∧ PosId.int read.tid = st.last_chr) →
        flushPositional cfg st read start = ([], st)) ∧
      ((start > st.last_pos + 1000 ∧ PosId.int read.tid = st.last_chr) →
        flushPositional cfg st read start =
          (emitBundles st.read_events st.reads_dict
             ((st.reads_dict.map (·.1)).filter (fun x => pleInt x (start - 1000))),
           { st with
              reads_dict := st.reads_dict.filter
                (fun kv => ¬ pleInt kv.1 (start - 1000) = true),
              read_counts := delKeys st.read_counts
                ((st.reads_dict.map (·.1)).filter (fun x => pleInt x (start - 1000))),
              last_pos := start, last_chr := PosId.int read.tid })) ∧
      ((¬ (PosId.int read.tid = st.last_chr)) →
        flushPositional cfg st read start =
          (emitBundles st.read_events st.reads_dict (st.reads_dict.map (·.1)),
           { st with
              reads_dict := [],
              read_counts := delKeys st.read_counts (st.reads_dict.map (·.1)),
              last_pos := start, last_chr := PosId.int read.tid })) ∧
      (∀ p kd, start > st.last_pos + 1000 → pleInt p (start - 1000) = true →
        aget (flushPositional cfg st read start).2.reads_dict p =
          Option.none ∧
        (aget st.reads_dict p = Option.some kd →
          ∀ kv ∈ kd, (OutItem.mapped kv.2, st.read_events) ∈
            (flushPositional cfg st read start).1)) := by
  intro cfg st read start hwc
  have hA : (¬ (start > st.last_pos + 1000) ∧ PosId.int read.tid = st.last_chr) →
      flushPositional cfg st read start = ([], st) := by
    intro h
    have hd : doOutput cfg st read start = false := by
      unfold doOutput contigChanged
      rw [hwc]
      simp [decide_eq_false h.1, h.2]
    simp [flushPositional, hd]
  have hB : (start > st.last_pos + 1000 ∧ PosId.int read.tid = st.last_chr) →
      flushPositional cfg st read start =
        (emitBundles st.read_events st.reads_dict
           ((st.reads_dict.map (·.1)).filter (fun x => pleInt x (start - 1000))),
         { st with
            reads_dict := st.reads_dict.filter
              (fun kv => ¬ pleInt kv.1 (start - 1000) = true),
            read_counts := delKeys st.read_counts
              ((st.reads_dict.map (·.1)).filter (fun x => pleInt x (start - 1000))),
            last_pos := start, last_chr := PosId.int read.tid }) := by
    intro h
    have hd : doOutput cfg st read start = true := by
      unfold doOutput contigChanged
      rw [hwc]
      simp [decide_eq_true h.1]
    have hk : outKeys st read start =
        (st.reads_dict.map (·.1)).filter (fun x => pleInt x (start - 1000)) := by
      unfold outKeys contigChanged
      simp [h.2]
    simp only [flushPositional, hd, if_true, hk]
    rw [delKeys_filter]
  have hC : (¬ (PosId.int read.tid = st.last_chr)) →
      flushPositional cfg st read start =
        (emitBundles st.read_events st.reads_dict (st.reads_dict.map (·.1)),
         { st with
            reads_dict := [],
            read_counts := delKeys st.read_counts (st.reads_dict.map (·.1)),
            last_pos := start, last_chr := PosId.int read.tid }) := by
    intro h
    have hd : doOutput cfg st read start = true := by
      unfold doOutput contigChanged
      rw [hwc]
      simp [decide_eq_false h]
    have hk : outKeys st read start = st.reads_dict.map (·.1) := by
      unfold outKeys contigChanged
      simp [decide_eq_false h]
    simp only [flushPositional, hd, if_true, hk]
    rw [delKeys_all]
  refine ⟨hA, hB, hC, ?_⟩
  intro p kd hstart hple
  by_cases hc : PosId.int read.tid = st.last_chr
  · rw [hB ⟨hstart, hc⟩]
    refine ⟨?_, ?_⟩
    · show aget (st.reads_dict.filter
        (fun kv => ¬ pleInt kv.1 (start - 1000) = true)) p = Option.none
      exact aget_filter_not st.reads_dict
        (fun x => pleInt x (start - 1000)) p hple
    · intro hg kv hkv
      have hkmem : p ∈ (st.reads_dict.map (·.1)).filter
          (fun x => pleInt x (start - 1000)) :=
        List.mem_filter.mpr ⟨aget_some_mem_keys hg, hple⟩
      show (OutItem.mapped kv.2, st.read_events) ∈ emitBundles st.read_events
        st.reads_dict ((st.reads_dict.map (·.1)).filter
          (fun x => pleInt x (start - 1000)))
      exact emitBundles_mem st.read_events st.reads_dict _ p kd hkmem hg kv hkv
  · rw [hC hc]
    refine ⟨rfl, ?_⟩
    intro hg kv hkv
    show (OutItem.mapped kv.2, st.read_events) ∈ emitBundles st.read_events
      st.reads_dict (st.reads_dict.map (·.1))
    exact emitBundles_mem st.read_events st.reads_dict _ p kd
      (aget_some_mem_keys hg) hg kv hkv

/-- C5 counterexample inputs: a reverse-strand read whose derived coordinate
key (`pos = aend = 2000`) lies far ahead of its start 0, then a forward read
at start 1500 on the same contig - more than 1000 units apart. -/
def c5r1 : Read :=
  { baseRead with
    qname := "v1", is_reverse := true, pos := 0, aend := 2000,
    cigar := [(0, 2000)] }

def c5r2 : Read :=
  { baseRead with qname := "v2", pos := 1500, aend := 1550 }

def c5cfg : Config := {}

/-- C5 counterexample: two retained same-contig reads whose starts are more
than 1000 units apart, yet processing both yields nothing - the earlier
read's group (coordinate key 2000) is still live after the second read was
processed, because the flush filter `key ≤ start - 1000` keys on the derived
coordinate, not the start. -/
theorem C5_counterexample :
    c5r1.tid = c5r2.tid ∧
    c5r2.pos - c5r1.pos > 1000 ∧
    get_read_position c5r1 0 = Option.some (0, 2000, false) ∧
    get_read_position c5r2 0 = Option.some (1500, 1500, false) ∧
    (runReads c5cfg (fun _ => 0) initB [c5r1, c5r2]).1 = [] ∧
    ((runReads c5cfg (fun _ => 0) initB [c5r1, c5r2]).2.map
      (fun st => (aget st.reads_dict (PosId.int 2000)).isSome)) =
        Option.some true := by
  refine ⟨by decide, by decide, by decide, by decide, by decide, by decide⟩

/-- C5 witness state: one buffered group at coordinate 0 on contig 0. -/
def c5entry : Entry := ⟨RVal.one baseRead, 1, [baseRead]⟩

def c5st : BState :=
  ⟨0, PosId.int 0,
   [(PosId.int 0, [(GKey.tup false false 0 0, [("", c5entry)])])],
   [(PosId.int 0, [(GKey.tup false false 0 0, [("", 0)])])],
   [], 0⟩

theorem C5_windowing_witness :
    aget (flushPositional c5cfg c5st c5r2 1500).2.reads_dict (PosId.int 0) =
      Option.none ∧
    (OutItem.mapped [("", c5entry)], c5st.read_events) ∈
      (flushPositional c5cfg c5st c5r2 1500).1 := by
  have h := (C5_windowing c5cfg c5st c5r2 1500 rfl).2.2.2 (PosId.int 0)
    [(GKey.tup false false 0 0, [("", c5entry)])] (by decide) (by decide)
  exact ⟨h.1, h.2 (by decide) (GKey.tup false false 0 0, [("", c5entry)])
    (by decide)⟩

/-! ### C1: reservoir tie-break distribution -/

theorem Pr_append {α : Type} [DecidableEq α] (d1 d2 : FDist α) (x : α) :
    Pr (d1 ++ d2) x = Pr d1 x + Pr d2 x := by
  unfold Pr
  rw [List.map_append, List.sum_append]

theorem Pr_scale {α : Type} [DecidableEq α] (p : ℚ) (d : FDist α) (x : α) :
    Pr (scaleD p d) x = p * Pr d x := by
  induction d with
  | nil => simp [Pr, scaleD]
  | cons qa rest ih =>
    simp only [scaleD, List.map_cons, Pr, List.sum_cons] at ih ⊢
    by_cases h : qa.2 = x <;> simp [h] at ih ⊢ <;> rw [ih] <;> ring

theorem resRun_pr {α : Type} [DecidableEq α] :
    ∀ (cs : List α) (k : ℕ) (rep x : α), (rep :: cs).Nodup →
    0 < k + cs.length →
    Pr (resRun k rep cs) x =
      (if x = rep then (k : ℚ) else if x ∈ cs then 1 else 0) /
        ((k : ℚ) + (cs.length : ℚ)) := by
  intro cs
  induction cs with
  | nil =>
    intro k rep x hnd hpos
    have hk : (k : ℚ) ≠ 0 := by
      simp only [List.length_nil, Nat.add_zero] at hpos
      exact_mod_cast Nat.pos_iff_ne_zero.mp hpos
    by_cases h : x = rep
    · subst h
      simp [resRun, Pr, div_self hk]
    · simp [resRun, Pr, h, Ne.symm h]
  | cons c cs' ih =>
    intro k rep x hnd hpos
    obtain ⟨hrep_notin, hnd1⟩ := List.nodup_cons.mp hnd
    obtain ⟨hc_notin, hcs'⟩ := List.nodup_cons.mp hnd1
    have hnd2 : (rep :: cs').Nodup :=
      List.nodup_cons.mpr
        ⟨fun h => hrep_notin (List.mem_cons_of_mem _ h), hcs'⟩
    have hrc : rep ≠ c := fun h => hrep_notin (h ▸ List.mem_cons_self c cs')
    rw [show resRun k rep (c :: cs') =
      scaleD (1 / ((k : ℚ) + 1)) (resRun (k + 1) c cs') ++
        scaleD (1 - 1 / ((k : ℚ) + 1)) (resRun (k + 1) rep cs') from rfl]
    rw [Pr_append, Pr_scale, Pr_scale,
      ih (k + 1) c x (List.nodup_cons.mpr ⟨hc_notin, hcs'⟩) (by omega),
      ih (k + 1) rep x hnd2 (by omega)]
    have hk1 : ((k : ℚ) + 1) ≠ 0 := by positivity
    have hkm : ((k : ℚ) + 1 + (cs'.length : ℚ)) ≠ 0 := by positivity
    have hkm2 : ((k : ℚ) + ((cs'.length : ℚ) + 1)) ≠ 0 := by positivity
    push_cast
    simp only [List.length_cons, Nat.cast_add, Nat.cast_one, List.mem_cons]
    by_cases hxr : x = rep
    · subst hxr
      simp only [if_pos rfl, if_neg hrc,
        if_neg (fun h => hrep_notin (List.mem_cons_of_mem c h)),
        if_neg (show ¬ (x = c ∨ x ∈ cs') from
          fun h => hrep_notin (List.mem_cons.mpr h))]
      field_simp
      try ring
      try exact Or.inl trivial
    · simp only [if_neg hxr]
      by_cases hxc : x = c
      · subst hxc
        simp only [if_pos rfl, if_neg hc_notin,
          if_pos (Or.inl rfl : x = x ∨ x ∈ cs')]
        field_simp
        ring
      · simp only [if_neg hxc]
        by_cases hxm : x ∈ cs'
        · simp only [if_pos hxm, if_pos (Or.inr hxm : x = c ∨ x ∈ cs')]
          field_simp
          ring
        · simp only [if_neg hxm,
            if_neg (show ¬ (x = c ∨ x ∈ cs') from fun h => h.elim hxc hxm)]
          simp

def c1first : Read := { baseRead with qname := "t1" }
def c1second : Read := { baseRead with qname := "t2" }

/-- C1 counterexample: with two exactly tied candidates the claim says each
(the first arrival included) is the emitted representative with probability
1/2; but the first tie has counter 1 and replacement probability 1/1, so the
first-arriving read survives with probability 0. -/
theorem C1_counterexample :
    Pr (resRun 0 c1first [c1second]) c1first = 0 ∧ (0 : ℚ) ≠ 1 / 2 := by
  constructor
  · have hne : c1first ≠ c1second := by decide
    simp [resRun, scaleD, Pr, hne, Ne.symm hne]
  · norm_num

/-- C1 (amended): on an exact tie (equal MAPQ, detection method none) the
k-th tied challenger sees the tie counter incremented to k and replaces the
representative exactly when the draw is below 1/k - an event of probability
1/k under a uniform draw from [0,1).  Consequently the first challenger
replaces with certainty, the first-arriving read is never the emitted
representative (probability 0), and each of the n-1 subsequent candidates
ends as the representative with probability exactly 1/(n-1) - uniform over
the challengers, not over all n candidates. -/
theorem C1_reservoir :
    (∀ (rep read : Read) (rc : ℕ) (q : ℚ), rep.mapq = read.mapq →
      selectRep DetMethod.none rep rc read q =
        Option.some
          (if q < 1 / ((rc : ℚ) + 1) then read else rep, rc + 1, true)) ∧
    (∀ (first : Read) (chals : List Read),
      (first :: chals).Nodup → chals ≠ [] →
      Pr (resRun 0 first chals) first = 0 ∧
      ∀ c ∈ chals, Pr (resRun 0 first chals) c = 1 / (chals.length : ℚ)) := by
  constructor
  · intro rep read rc q hmapq
    have hgt : ¬ (rep.mapq > read.mapq) := by omega
    have hlt : ¬ (rep.mapq < read.mapq) := by omega
    unfold selectRep
    rw [if_neg hgt, if_neg hlt]
    show Option.some (reservoir rep rc read q) = _
    unfold reservoir
    have hcast : ((rc + 1 : ℕ) : ℚ) = (rc : ℚ) + 1 := by push_cast; ring
    simp only [hcast]
    by_cases hq : q < 1 / ((rc : ℚ) + 1)
    · rw [if_pos hq, if_pos hq]
    · rw [if_neg hq, if_neg hq]
  · intro first chals hnd hne
    have hpos : 0 < 0 + chals.length := by
      cases chals with
      | nil => exact absurd rfl hne
      | cons a l => simp
    constructor
    · rw [resRun_pr chals 0 first first hnd hpos]
      rw [if_pos rfl]
      norm_num
    · intro c hc
      rw [resRun_pr chals 0 first c hnd hpos]
      have hcf : ¬ (c = first) := by
        intro h
        exact (List.nodup_cons.mp hnd).1 (h ▸ hc)
      rw [if_neg hcf, if_pos hc]
      norm_num

/-- C1 witness: the amended behaviour at two concrete tied reads. -/
theorem C1_reservoir_witness :
    selectRep DetMethod.none c1first 0 c1second (1 / 2) =
      Option.some (c1second, 1, true) ∧
    Pr (resRun 0 c1first [c1second]) c1first = 0 ∧
    Pr (resRun 0 c1first [c1second]) c1second = 1 / 1 := by
  refine ⟨?_, ?_, ?_⟩
  · have h := C1_reservoir.1 c1first c1second 0 (1 / 2) rfl
    norm_num at h
    simpa using h
  · exact (C1_reservoir.2 c1first [c1second] (by decide) (by decide)).1
  · have h := (C1_reservoir.2 c1first [c1second] (by decide) (by decide)).2
      c1second (List.mem_singleton.mpr rfl)
    simpa using h

/-! ### C2: the Input Reads counter -/

/-- What the `Input Reads` counter actually accumulates over a consumed
prefix: one per non-read2 record, plus - when `return_unmapped` is set - one
more per unmapped non-read2 record (the double increment of lines 285 and
297). -/
def inputReadsExpected (cfg : Config) (reads : List Read) : ℕ :=
  reads.countP (fun r => !r.is_read2) +
  (if cfg.return_unmapped
   then reads.countP (fun r => !r.is_read2 && r.is_unmapped) else 0)

/-- The per-read contribution to the `Input Reads` counter. -/
def inputReadsBump (cfg : Config) (r : Read) : ℕ :=
  (if r.is_read2 then 0 else 1) +
  (if !r.is_read2 && r.is_unmapped && cfg.return_unmapped then 1 else 0)

theorem inputReadsBump_sum (cfg : Config) :
    ∀ reads : List Read,
    (reads.map (inputReadsBump cfg)).sum = inputReadsExpected cfg reads := by
  intro reads
  induction reads with
  | nil => simp [inputReadsExpected]
  | cons r rest ih =>
    simp only [List.map_cons, List.sum_cons]
    rw [ih]
    unfold inputReadsExpected inputReadsBump
    simp only [List.countP_cons]
    cases h2 : r.is_read2 <;> cases hu : r.is_unmapped <;>
      cases hru : cfg.return_unmapped <;> simp [h2, hu, hru] <;> omega

theorem emitBundles_events (ev : List (String × ℕ)) (rd : ReadsDict)
    (ks : List PosId) : ∀ o ∈ emitBundles ev rd ks, o.2 = ev := by
  intro o ho
  unfold emitBundles at ho
  obtain ⟨p, _, hp⟩ := List.mem_flatMap.mp ho
  revert hp
  cases aget rd p with
  | none => intro hp; simp at hp
  | some kd =>
    intro hp
    obtain ⟨kv, _, hkv⟩ := List.mem_map.mp hp
    rw [← hkv]

theorem flushPositional_events (cfg : Config) (st : BState) (r : Read)
    (start : ℤ) :
    ((flushPositional cfg st r start).2).read_events = st.read_events ∧
    ∀ o ∈ (flushPositional cfg st r start).1, o.2 = st.read_events := by
  unfold flushPositional
  split
  · exact ⟨rfl, emitBundles_events _ _ _⟩
  · exact ⟨rfl, by intro o ho; simp at ho⟩

theorem flushContig_events (st : BState) (pos : PosId) :
    ((flushContig st pos).2).read_events = st.read_events ∧
    ∀ o ∈ (flushContig st pos).1, o.2 = st.read_events := by
  unfold flushContig
  split
  · exact ⟨rfl, emitBundles_events _ _ _⟩
  · exact ⟨rfl, by intro o ho; simp at ho⟩

theorem accumulate_read_events (cfg : Config) (rand : ℕ → ℚ) (st : BState)
    (pos : PosId) (key : GKey) (umi : String) (r : Read) (st' : BState)
    (h : accumulate cfg rand st pos key umi r = Option.some st') :
    st'.read_events = st.read_events := by
  unfold accumulate at h
  cases h3 : aget3 st.reads_dict pos key umi with
  | none =>
    simp only [h3, Option.some.injEq] at h
    rw [← h]
  | some e =>
    simp only [h3] at h
    cases ha : cfg.all_reads with
    | true =>
      simp only [ha, if_true] at h
      cases he : e.read with
      | many rs =>
        simp only [he, Option.some.injEq] at h
        rw [← h]
      | one rep => simp only [he] at h; cases h
    | false =>
      simp only [ha, Bool.false_eq_true, if_false] at h
      cases he : e.read with
      | many rs => simp only [he] at h; cases h
      | one rep =>
        simp only [he] at h
        cases hrc : rcget st.read_counts pos key umi with
        | none => simp only [hrc] at h; cases h
        | some rc =>
          simp only [hrc] at h
          cases hs : selectRep cfg.detection_method rep rc r (rand st.rix) with
          | none => simp only [hs] at h; cases h
          | some t =>
            obtain ⟨rep', rc', used⟩ := t
            simp only [hs, Option.some.injEq] at h
            rw [← h]

theorem cgetIR_other (c : List (String × ℕ)) (k : String)
    (hk : ¬ ("Input Reads" = k)) :
    cget (cincr c k) "Input Reads" = cget c "Input Reads" :=
  cget_cincr_ne c _ k hk

theorem qtPhase_inputReads (cfg : Config) (st : BState) (r : Read) :
    (∀ outs res, qtPhase cfg st r = Sum.inl (outs, res) →
      outs = [] ∧
      ∀ st', res = Option.some st' →
        cget st'.read_events "Input Reads" = cget st.read_events "Input Reads") ∧
    (∀ st2, qtPhase cfg st r = Sum.inr st2 →
      cget st2.read_events "Input Reads" = cget st.read_events "Input Reads") := by
  constructor
  · intro outs res h
    unfold qtPhase at h
    split at h
    · simp only [Sum.inl.injEq, Prod.mk.injEq] at h
      obtain ⟨h1, h2⟩ := h
      subst h1
      refine ⟨rfl, ?_⟩
      intro st' hst'
      rw [← h2] at hst'
      simp only [Option.some.injEq] at hst'
      rw [← hst']
      exact cgetIR_other _ _ (by decide)
    · exact absurd h (by simp)
  · intro st2 h
    unfold qtPhase at h
    split at h
    · exact absurd h (by simp)
    · simp only [Sum.inr.injEq] at h
      rw [← h]

theorem subsetPhase_inputReads (cfg : Config) (rand : ℕ → ℚ) (st : BState)
    (r : Read) :
    (∀ outs res, subsetPhase cfg rand st r = Sum.inl (outs, res) →
      outs = [] ∧
      ∀ st', res = Option.some st' →
        cget st'.read_events "Input Reads" = cget st.read_events "Input Reads") ∧
    (∀ st2, subsetPhase cfg rand st r = Sum.inr st2 →
      cget st2.read_events "Input Reads" = cget st.read_events "Input Reads") := by
  have hqt : ∀ st1 : BState,
      cget st1.read_events "Input Reads" = cget st.read_events "Input Reads" →
      (∀ outs res, qtPhase cfg st1 r = Sum.inl (outs, res) →
        outs = [] ∧
        ∀ st', res = Option.some st' →
          cget st'.read_events "Input Reads" =
            cget st.read_events "Input Reads") ∧
      (∀ st2, qtPhase cfg st1 r = Sum.inr st2 →
        cget st2.read_events "Input Reads" =
          cget st.read_events "Input Reads") := by
    intro st1 h1
    constructor
    · intro outs res h
      obtain ⟨ho, hs⟩ := (qtPhase_inputReads cfg st1 r).1 outs res h
      exact ⟨ho, fun st' hst' => by rw [hs st' hst', h1]⟩
    · intro st2 h
      rw [(qtPhase_inputReads cfg st1 r).2 st2 h, h1]
  cases hsub : cfg.subset with
  | none =>
    simp only [subsetPhase, hsub]
    exact hqt st rfl
  | some s =>
    by_cases h0 : s = 0
    · simp only [subsetPhase, hsub, if_pos h0]
      exact hqt st rfl
    · cases hd : decide (rand st.rix ≥ s) with
      | true =>
        simp only [subsetPhase, hsub, if_neg h0, hd]
        constructor
        · intro outs res h
          simp only [Sum.inl.injEq, Prod.mk.injEq] at h
          obtain ⟨h1, h2⟩ := h
          subst h1
          refine ⟨rfl, ?_⟩
          intro st' hst'
          rw [← h2] at hst'
          simp only [Option.some.injEq] at hst'
          rw [← hst']
          exact cgetIR_other _ _ (by decide)
        · intro st2 h
          exact absurd h (by simp)
      | false =>
        simp only [subsetPhase, hsub, if_neg h0, hd]
        exact hqt _ rfl

theorem samplePhase_inputReads (cfg : Config) (rand : ℕ → ℚ) (st : BState)
    (r : Read) :
    (∀ outs res, samplePhase cfg rand st r = Sum.inl (outs, res) →
      outs = [] ∧
      ∀ st', res = Option.some st' →
        cget st'.read_events "Input Reads" = cget st.read_events "Input Reads") ∧
    (∀ st2, samplePhase cfg rand st r = Sum.inr st2 →
      cget st2.read_events "Input Reads" = cget st.read_events "Input Reads") := by
  have hbase :
      cget (if cfg.paired then
        { st with read_events := cincr st.read_events "Paired Reads" }
      else st).read_events "Input Reads" = cget st.read_events "Input Reads" := by
    split
    · exact cgetIR_other _ _ (by decide)
    · rfl
  have hs := subsetPhase_inputReads cfg rand
    (if cfg.paired then
      { st with read_events := cincr st.read_events "Paired Reads" }
    else st) r
  constructor
  · intro outs res h
    obtain ⟨ho, hrest⟩ := hs.1 outs res h
    exact ⟨ho, fun st' hst' => by rw [hrest st' hst', hbase]⟩
  · intro st2 h
    rw [hs.2 st2 h, hbase]

theorem groupPhase_events (cfg : Config) (rand : ℕ → ℚ) (st : BState)
    (r : Read) (outs : List Output) (res : Option BState)
    (hg : groupPhase cfg rand st r = (outs, res)) :
    (∀ st', res = Option.some st' → st'.read_events = st.read_events) ∧
    (∀ o ∈ outs, o.2 = st.read_events) := by
  simp only [groupPhase] at hg
  split at hg
  · split at hg
    · split at hg
      · cases hg
        rename_i st3 hacc
        refine ⟨?_, (flushContig_events st _).2⟩
        intro st' hst'
        cases hst'
        rw [accumulate_read_events cfg rand _ _ _ _ _ _ hacc,
          (flushContig_events st _).1]
      · cases hg
        exact ⟨(fun st' hst' => nomatch hst'), (flushContig_events st _).2⟩
    · split at hg
      · cases hg
        exact ⟨(fun st' hst' => nomatch hst'), by intro o ho; cases ho⟩
      · cases hg
        exact ⟨(fun st' hst' => nomatch hst'), by intro o ho; cases ho⟩
      · split at hg
        · cases hg
          refine ⟨?_, by intro o ho; cases ho⟩
          intro st' hst'
          cases hst'
          rfl
        · split at hg
          · cases hg
            rename_i st3 hacc
            refine ⟨?_, (flushContig_events st _).2⟩
            intro st' hst'
            cases hst'
            rw [accumulate_read_events cfg rand _ _ _ _ _ _ hacc,
              (flushContig_events st _).1]
          · cases hg
            exact ⟨(fun st' hst' => nomatch hst'), (flushContig_events st _).2⟩
  · split at hg
    · cases hg
      exact ⟨(fun st' hst' => nomatch hst'), by intro o ho; cases ho⟩
    · split at hg
      · cases hg
        rename_i st3 hacc
        refine ⟨?_, (flushPositional_events cfg st r _).2⟩
        intro st' hst'
        cases hst'
        rw [accumulate_read_events cfg rand _ _ _ _ _ _ hacc,
          (flushPositional_events cfg st r _).1]
      · cases hg
        exact ⟨(fun st' hst' => nomatch hst'),
          (flushPositional_events cfg st r _).2⟩

theorem filterPhase_inputReads (cfg : Config) (rand : ℕ → ℚ) (st : BState)
    (r : Read) :
    (∀ outs res, filterPhase cfg rand st r = Sum.inl (outs, res) →
      (∀ st', res = Option.some st' →
        cget st'.read_events "Input Reads" =
          cget st.read_events "Input Reads" + inputReadsBump cfg r) ∧
      (∀ o ∈ outs,
        cget o.2 "Input Reads" = cget st.read_events "Input Reads" ∨
        cget o.2 "Input Reads" =
          cget st.read_events "Input Reads" + inputReadsBump cfg r)) ∧
    (∀ st2, filterPhase cfg rand st r = Sum.inr st2 →
      cget st2.read_events "Input Reads" =
        cget st.read_events "Input Reads" + inputReadsBump cfg r) := by
  constructor
  · intro outs res h
    simp only [filterPhase] at h
    split at h
    · rename_i h2
      have hb : inputReadsBump cfg r = 0 := by
        simp [inputReadsBump, h2]
      rw [hb, Nat.add_zero]
      split at h
      · split at h
        · simp only [Sum.inl.injEq, Prod.mk.injEq] at h
          obtain ⟨ho, hr⟩ := h
          subst ho; subst hr
          constructor
          · intro st' hst'
            cases hst'
            rfl
          · intro o ho
            simp only [List.mem_singleton] at ho
            subst ho
            exact Or.inl rfl
        · simp only [Sum.inl.injEq, Prod.mk.injEq] at h
          obtain ⟨ho, hr⟩ := h
          subst ho; subst hr
          refine ⟨?_, by intro o ho; cases ho⟩
          intro st' hst'
          cases hst'
          rfl
      · simp only [Sum.inl.injEq, Prod.mk.injEq] at h
        obtain ⟨ho, hr⟩ := h
        subst ho; subst hr
        refine ⟨?_, by intro o ho; cases ho⟩
        intro st' hst'
        cases hst'
        rfl
    · rename_i h2
      have h2' : r.is_read2 = false := by
        cases hx : r.is_read2
        · rfl
        · exact absurd hx h2
      split at h
      · rename_i hu
        have hb : inputReadsBump cfg r =
            1 + (if cfg.return_unmapped then 1 else 0) := by
          simp [inputReadsBump, h2', hu]
        split at h
        · rename_i hru
          simp only [Sum.inl.injEq, Prod.mk.injEq] at h
          obtain ⟨ho, hr⟩ := h
          subst ho; subst hr
          have hev : ∀ c : List (String × ℕ),
              cget (cincr (if cfg.paired then
                (if r.mate_is_unmapped then cincr c "Both unmapped"
                 else cincr c "Read 1 unmapped")
                else cincr c "Single end unmapped") "Input Reads")
                "Input Reads" = cget c "Input Reads" + 1 := by
            intro c
            rw [cget_cincr_self]
            split
            · split <;> rw [cgetIR_other _ _ (by decide)]
            · rw [cgetIR_other _ _ (by decide)]
          constructor
          · intro st' hst'
            cases hst'
            show cget (cincr _ "Input Reads") "Input Reads" = _
            rw [hev, cget_cincr_self, hb, if_pos hru]
          · intro o ho
            simp only [List.mem_singleton] at ho
            subst ho
            right
            show cget (cincr _ "Input Reads") "Input Reads" = _
            rw [hev, cget_cincr_self, hb, if_pos hru]
        · rename_i hru
          simp only [Sum.inl.injEq, Prod.mk.injEq] at h
          obtain ⟨ho, hr⟩ := h
          subst ho; subst hr
          refine ⟨?_, by intro o ho; cases ho⟩
          intro st' hst'
          cases hst'
          show cget (if cfg.paired then _ else _) "Input Reads" = _
          rw [hb, if_neg hru]
          have : ∀ c : List (String × ℕ),
              cget (if cfg.paired then
                (if r.mate_is_unmapped then cincr c "Both unmapped"
                 else cincr c "Read 1 unmapped")
                else cincr c "Single end unmapped") "Input Reads" =
              cget c "Input Reads" := by
            intro c
            split
            · split <;> rw [cgetIR_other _ _ (by decide)]
            · rw [cgetIR_other _ _ (by decide)]
          rw [this, cget_cincr_self]
      · rename_i hu
        have hu' : r.is_unmapped = false := by
          cases hx : r.is_unmapped
          · rfl
          · exact absurd hx hu
        have hb : inputReadsBump cfg r = 1 := by
          simp [inputReadsBump, h2', hu']
        rw [hb]
        split at h
        · split at h
          · simp only [Sum.inl.injEq, Prod.mk.injEq] at h
            obtain ⟨ho, hr⟩ := h
            subst ho; subst hr
            constructor
            · intro st' hst'
              cases hst'
              show cget (cincr (cincr st.read_events "Input Reads")
                "Read 2 unmapped") "Input Reads" = _
              rw [cgetIR_other _ _ (by decide), cget_cincr_self]
            · intro o ho
              simp only [List.mem_singleton] at ho
              subst ho
              right
              show cget (cincr (cincr st.read_events "Input Reads")
                "Read 2 unmapped") "Input Reads" = _
              rw [cgetIR_other _ _ (by decide), cget_cincr_self]
          · simp only [Sum.inl.injEq, Prod.mk.injEq] at h
            obtain ⟨ho, hr⟩ := h
            subst ho; subst hr
            refine ⟨?_, by intro o ho; cases ho⟩
            intro st' hst'
            cases hst'
            show cget (cincr (cincr st.read_events "Input Reads")
              "Read 2 unmapped") "Input Reads" = _
            rw [cgetIR_other _ _ (by decide), cget_cincr_self]
        · obtain ⟨ho, hrest⟩ := (samplePhase_inputReads cfg rand
            { st with read_events := cincr st.read_events "Input Reads" } r).1
            outs res h
          subst ho
          refine ⟨?_, by intro o ho; cases ho⟩
          intro st' hst'
          rw [hrest st' hst']
          show cget (cincr _ "Input Reads") "Input Reads" = _
          rw [cget_cincr_self]
  · intro st2 h
    simp only [filterPhase] at h
    split at h
    · split at h
      · split at h
        · cases h
        · cases h
      · cases h
    · rename_i h2
      have h2' : r.is_read2 = false := by
        cases hx : r.is_read2
        · rfl
        · exact absurd hx h2
      split at h
      · split at h
        · cases h
        · cases h
      · rename_i hu
        have hu' : r.is_unmapped = false := by
          cases hx : r.is_unmapped
          · rfl
          · exact absurd hx hu
        have hb : inputReadsBump cfg r = 1 := by
          simp [inputReadsBump, h2', hu']
        rw [hb]
        split at h
        · split at h
          · cases h
          · cases h
        · rw [(samplePhase_inputReads cfg rand
            { st with read_events := cincr st.read_events "Input Reads" } r).2
            st2 h]
          show cget (cincr _ "Input Reads") "Input Reads" = _
          rw [cget_cincr_self]

theorem processRead_inputReads (cfg : Config) (rand : ℕ → ℚ) (st : BState)
    (r : Read) (outs : List Output) (res : Option BState)
    (h : processRead cfg rand st r = (outs, res)) :
    (∀ st', res = Option.some st' →
      cget st'.read_events "Input Reads" =
        cget st.read_events "Input Reads" + inputReadsBump cfg r) ∧
    (∀ o ∈ outs,
      cget o.2 "Input Reads" = cget st.read_events "Input Reads" ∨
      cget o.2 "Input Reads" =
        cget st.read_events "Input Reads" + inputReadsBump cfg r) := by
  unfold processRead at h
  cases hf : filterPhase cfg rand st r with
  | inl out =>
    simp only [hf] at h
    cases h
    exact (filterPhase_inputReads cfg rand st r).1 outs res hf
  | inr st2 =>
    simp only [hf] at h
    have hst2 := (filterPhase_inputReads cfg rand st r).2 st2 hf
    obtain ⟨hg1, hg2⟩ := groupPhase_events cfg rand st2 r outs res h
    constructor
    · intro st' hst'
      rw [show st'.read_events = st2.read_events from hg1 st' hst', hst2]
    · intro o ho
      rw [show o.2 = st2.read_events from hg2 o ho, hst2]
      exact Or.inr rfl

theorem inputReadsExpected_cons (cfg : Config) (r : Read) (rs : List Read) :
    inputReadsExpected cfg (r :: rs) =
      inputReadsBump cfg r + inputReadsExpected cfg rs := by
  unfold inputReadsExpected inputReadsBump
  simp only [List.countP_cons]
  cases h2 : r.is_read2 <;> cases hu : r.is_unmapped <;>
    cases hru : cfg.return_unmapped <;> simp [h2, hu, hru] <;> omega

theorem runReads_inputReads (cfg : Config) (rand : ℕ → ℚ) :
    ∀ (reads : List Read) (st : BState) (outs : List Output)
      (res : Option BState),
    runReads cfg rand st reads = (outs, res) →
    (∀ st', res = Option.some st' →
      cget st'.read_events "Input Reads" =
        cget st.read_events "Input Reads" + inputReadsExpected cfg reads) ∧
    (∀ o ∈ outs, ∃ n, n ≤ reads.length ∧
      cget o.2 "Input Reads" =
        cget st.read_events "Input Reads" +
          inputReadsExpected cfg (reads.take n)) := by
  intro reads
  induction reads with
  | nil =>
    intro st outs res h
    simp only [runReads] at h
    cases h
    refine ⟨?_, by intro o ho; cases ho⟩
    intro st' hst'
    cases hst'
    simp [inputReadsExpected]
  | cons r rs ih =>
    intro st outs res h
    simp only [runReads] at h
    cases hp : processRead cfg rand st r with
    | mk pouts pres =>
      obtain ⟨hcur1, hcur2⟩ := processRead_inputReads cfg rand st r pouts pres hp
      have hyield : ∀ o ∈ pouts, ∃ n, n ≤ (r :: rs).length ∧
          cget o.2 "Input Reads" =
            cget st.read_events "Input Reads" +
              inputReadsExpected cfg ((r :: rs).take n) := by
        intro o ho
        cases hcur2 o ho with
        | inl hl =>
          exact ⟨0, Nat.zero_le _, by
            simpa [inputReadsExpected] using hl⟩
        | inr hr =>
          refine ⟨1, by simp, ?_⟩
          rw [hr]
          have h1 : (r :: rs).take 1 = [r] := by simp
          have h0 : inputReadsExpected cfg [] = 0 := by
            simp [inputReadsExpected]
          rw [h1, inputReadsExpected_cons, h0, Nat.add_zero]
      cases pres with
      | none =>
        simp only [hp] at h
        cases h
        exact ⟨(fun st' hst' => nomatch hst'), hyield⟩
      | some st1 =>
        have hst1 : cget st1.read_events "Input Reads" =
            cget st.read_events "Input Reads" + inputReadsBump cfg r :=
          hcur1 st1 rfl
        simp only [hp] at h
        cases hrest : runReads cfg rand st1 rs with
        | mk routs rres =>
          simp only [hrest] at h
          cases h
          obtain ⟨hres1, hres2⟩ := ih st1 routs res hrest
          constructor
          · intro st' hst'
            rw [hres1 st' hst', hst1, inputReadsExpected_cons]
            omega
          · intro o ho
            cases List.mem_append.mp ho with
            | inl hin => exact hyield o hin
            | inr hin =>
              obtain ⟨n, hn, heq⟩ := hres2 o hin
              refine ⟨n + 1, by simpa using hn, ?_⟩
              rw [heq, hst1]
              simp only [List.take_succ_cons, inputReadsExpected_cons]
              omega

/-- C2 counterexample input: a single unmapped, non-read2 record, with
`return_unmapped` set. -/
def c2read : Read := { baseRead with qname := "u1", is_unmapped := true }

def c2cfg : Config := { return_unmapped := true }

/-- C2 counterexample: with `return_unmapped` set, consuming one unmapped
non-read2 record leaves `Input Reads` at 2 - lines 285 and 297 both
increment it - although only one non-read2 record was consumed, refuting
the claimed equality with the non-read2 record count. -/
theorem C2_counterexample :
    ((getBundles c2cfg (fun _ => 0) [c2read]).2.map
      (fun st => cget st.read_events "Input Reads")) = Option.some 2 ∧
    [c2read].countP (fun r => !r.is_read2) = 1 := by
  constructor
  · rfl
  · rfl

/-- C2 (amended): for every configuration and input stream, the
`Input Reads` counter of a `get_bundles` run equals, on the final state,
the number of non-read2 records consumed plus - when `return_unmapped` is
set - one extra per unmapped non-read2 record (lines 285 and 297 both
increment it for those); and the counter snapshot carried by every yielded
element matches that same formula evaluated on some prefix of the stream. -/
theorem C2_input_reads (cfg : Config) (rand : ℕ → ℚ) (reads : List Read)
    (outs : List Output) (res : Option BState)
    (h : getBundles cfg rand reads = (outs, res)) :
    (∀ st', res = Option.some st' →
      cget st'.read_events "Input Reads" = inputReadsExpected cfg reads) ∧
    (∀ o ∈ outs, ∃ n, n ≤ reads.length ∧
      cget o.2 "Input Reads" = inputReadsExpected cfg (reads.take n)) := by
  have hinit : cget initB.read_events "Input Reads" = 0 := rfl
  unfold getBundles at h
  cases hrun : runReads cfg rand initB reads with
  | mk routs rres =>
    obtain ⟨hr1, hr2⟩ := runReads_inputReads cfg rand reads initB routs rres hrun
    have hyield : ∀ o ∈ routs, ∃ n, n ≤ reads.length ∧
        cget o.2 "Input Reads" = inputReadsExpected cfg (reads.take n) := by
      intro o ho
      obtain ⟨n, hn, heq⟩ := hr2 o ho
      exact ⟨n, hn, by rw [heq, hinit, Nat.zero_add]⟩
    cases rres with
    | none =>
      simp only [hrun] at h
      cases h
      exact ⟨(fun st' hst' => nomatch hst'), hyield⟩
    | some stf =>
      simp only [hrun] at h
      cases h
      have hfin : cget stf.read_events "Input Reads" =
          inputReadsExpected cfg reads := by
        rw [hr1 stf rfl, hinit, Nat.zero_add]
      constructor
      · intro st' hst'
        cases hst'
        exact hfin
      · intro o ho
        cases List.mem_append.mp ho with
        | inl hin => exact hyield o hin
        | inr hin =>
          refine ⟨reads.length, Nat.le_refl _, ?_⟩
          rw [List.take_length]
          unfold finalFlush at hin
          obtain ⟨pkv, _, hp⟩ := List.mem_flatMap.mp hin
          obtain ⟨kv, _, hkv⟩ := List.mem_map.mp hp
          rw [← hkv]
          exact hfin

theorem C2_input_reads_witness :
    getBundles c2cfg (fun _ => 0) [c2read] =
      ([(OutItem.single c2read,
        [("Input Reads", 2), ("Single end unmapped", 1)])],
       Option.some { initB with
         read_events := [("Input Reads", 2), ("Single end unmapped", 1)] }) ∧
    cget { initB with
      read_events := [("Input Reads", 2), ("Single end unmapped", 1)]
      : BState }.read_events "Input Reads" = inputReadsExpected c2cfg [c2read] :=
  ⟨by rfl,
   (C2_input_reads c2cfg (fun _ => 0) [c2read] _ _ (by rfl)).1 _ rfl⟩

/-! ### C3: representative MAPQ monotonicity -/

/-- A single-representative bundle entry dominates (in MAPQ) every read ever
routed to its bucket (recorded by the ghost `acc` trace). -/
def entryMono (e : Entry) : Prop :=
  ∀ rep, e.read = RVal.one rep → ∀ r ∈ e.acc, r.mapq ≤ rep.mapq

/-- Every entry buffered anywhere in a `reads_dict` is MAPQ-dominated by its
representative. -/
def dictMono (rd : ReadsDict) : Prop :=
  ∀ pkv ∈ rd, ∀ kv ∈ pkv.2, ∀ ue ∈ kv.2, entryMono ue.2

theorem reservoir_fst (rep : Read) (rc : ℕ) (read : Read) (q : ℚ) :
    (reservoir rep rc read q).1 = rep ∨ (reservoir rep rc read q).1 = read := by
  by_cases hq : q < 1 / ((rc + 1 : ℕ) : ℚ)
  · refine Or.inr ?_
    show (if q < 1 / ((rc + 1 : ℕ) : ℚ) then (read, rc + 1, true)
      else (rep, rc + 1, true)).1 = read
    rw [if_pos hq]
  · refine Or.inl ?_
    show (if q < 1 / ((rc + 1 : ℕ) : ℚ) then (read, rc + 1, true)
      else (rep, rc + 1, true)).1 = rep
    rw [if_neg hq]

theorem selectRep_mapq (dm : DetMethod) (rep : Read) (rc : ℕ) (read : Read)
    (q : ℚ) (rep' : Read) (rc' : ℕ) (used : Bool)
    (h : selectRep dm rep rc read q = Option.some (rep', rc', used)) :
    rep.mapq ≤ rep'.mapq ∧ read.mapq ≤ rep'.mapq := by
  unfold selectRep at h
  split at h
  · rename_i hgt
    have hP : (rep', rc', used) = (rep, rc, false) := by
      simp only [Option.some.injEq] at h
      rw [h]
    injection hP with h1 h2
    subst h1
    exact ⟨Nat.le_refl _, Nat.le_of_lt hgt⟩
  · split at h
    · rename_i hgt hlt
      have hP : (rep', rc', used) = (read, 0, false) := by
        simp only [Option.some.injEq] at h
        rw [h]
      injection hP with h1 h2
      subst h1
      exact ⟨Nat.le_of_lt hlt, Nat.le_refl _⟩
    · rename_i hgt hlt
      have heq : rep.mapq = read.mapq :=
        Nat.le_antisymm (Nat.le_of_not_lt hgt) (Nat.le_of_not_lt hlt)
      have hres : ∀ a b : Read, a.mapq = rep.mapq → b.mapq = rep.mapq →
          ∀ n, rep' = (reservoir a n b q).1 →
          rep.mapq ≤ rep'.mapq ∧ read.mapq ≤ rep'.mapq := by
        intro a b ha hb n hr
        cases reservoir_fst a n b q with
        | inl hl => rw [hr, hl, ha]; omega
        | inr hrr => rw [hr, hrr, hb]; omega
      split at h
      · simp only [gt_iff_lt] at h
        cases hro : rep.optInt "NH" with
        | none => rw [hro] at h; simp at h
        | some rv =>
          cases hco : read.optInt "NH" with
          | none => rw [hro, hco] at h; simp at h
          | some cv =>
            rw [hro, hco] at h
            split at h
            · rename_i hlt2
              split at h
              · have hP : (rep', rc', used) = (rep, rc, false) := by
                  simp only [Option.some.injEq] at h
                  rw [h]
                injection hP with h1 h2
                subst h1
                omega
              · split at h
                · have hP : (rep', rc', used) = reservoir read 0 read q := by
                    simp only [Option.some.injEq] at h
                    rw [h]
                  exact hres read read heq.symm heq.symm 0
                    (congrArg Prod.fst hP)
                · have hP : (rep', rc', used) = reservoir rep rc read q := by
                    simp only [Option.some.injEq] at h
                    rw [h]
                  exact hres rep read rfl heq.symm rc (congrArg Prod.fst hP)
            · rename_i imp
              exact (imp rv cv rfl rfl).elim
      · simp only [gt_iff_lt] at h
        cases hro : rep.optInt "X0" with
        | none => rw [hro] at h; simp at h
        | some rv =>
          cases hco : read.optInt "X0" with
          | none => rw [hro, hco] at h; simp at h
          | some cv =>
            rw [hro, hco] at h
            split at h
            · rename_i hlt2
              split at h
              · have hP : (rep', rc', used) = (rep, rc, false) := by
                  simp only [Option.some.injEq] at h
                  rw [h]
                injection hP with h1 h2
                subst h1
                omega
              · split at h
                · have hP : (rep', rc', used) = reservoir read 0 read q := by
                    simp only [Option.some.injEq] at h
                    rw [h]
                  exact hres read read heq.symm heq.symm 0
                    (congrArg Prod.fst hP)
                · have hP : (rep', rc', used) = reservoir rep rc read q := by
                    simp only [Option.some.injEq] at h
                    rw [h]
                  exact hres rep read rfl heq.symm rc (congrArg Prod.fst hP)
            · rename_i imp
              exact (imp rv cv rfl rfl).elim
      · simp only [gt_iff_lt] at h
        cases hrx : rep.optStr "XT" with
        | none => rw [hrx] at h; simp at h
        | some rx =>
          rw [hrx] at h
          split at h
          · exact nomatch h
          · split at h
            · have hP : (rep', rc', used) = (rep, rc, false) := by
                simp only [Option.some.injEq] at h
                rw [h]
              injection hP with h1 h2
              subst h1
              omega
            · cases hcx : read.optStr "XT" with
              | none => rw [hcx] at h; simp at h
              | some cx =>
                rw [hcx] at h
                split at h
                · exact nomatch h
                · split at h
                  · have hP : (rep', rc', used) = reservoir read 0 read q := by
                      simp only [Option.some.injEq] at h
                      rw [h]
                    exact hres read read heq.symm heq.symm 0
                      (congrArg Prod.fst hP)
                  · have hP : (rep', rc', used) = reservoir rep rc read q := by
                      simp only [Option.some.injEq] at h
                      rw [h]
                    exact hres rep read rfl heq.symm rc (congrArg Prod.fst hP)
      · have hP : (rep', rc', used) = reservoir rep rc read q := by
          simp only [Option.some.injEq] at h
          rw [h]
        exact hres rep read rfl heq.symm rc (congrArg Prod.fst hP)

theorem aget3_entryMono {rd : ReadsDict} {p : PosId} {k : GKey} {u : String}
    {e : Entry} (hm : dictMono rd) (h : aget3 rd p k u = Option.some e) :
    entryMono e := by
  unfold aget3 at h
  cases hp : aget rd p with
  | none => simp only [hp] at h; cases h
  | some kd =>
    simp only [hp] at h
    cases hk : aget kd k with
    | none => simp only [hk] at h; cases h
    | some ud =>
      simp only [hk] at h
      exact hm (p, kd) (aget_mem hp) (k, ud) (aget_mem hk) (u, e) (aget_mem h)

theorem dictMono_aset3 {rd : ReadsDict} (p : PosId) (k : GKey) (u : String)
    {e : Entry} (hm : dictMono rd) (he : entryMono e) :
    dictMono (aset3 rd p k u e) := by
  intro pkv hpkv
  simp only [aset3] at hpkv
  cases mem_aset hpkv with
  | inr hold => exact hm pkv hold
  | inl hnew =>
    subst hnew
    intro kv hkv
    cases mem_aset hkv with
    | inl hnew2 =>
      subst hnew2
      intro ue hue
      cases mem_aset hue with
      | inl hnew3 => subst hnew3; exact he
      | inr hold3 =>
        cases hud : aget ((aget rd p).getD []) k with
        | none => rw [hud] at hold3; cases hold3
        | some ud0 =>
          rw [hud] at hold3
          cases hkd : aget rd p with
          | none => rw [hkd] at hud; cases hud
          | some kd0 =>
            rw [hkd] at hud
            exact hm (p, kd0) (aget_mem hkd) (k, ud0) (aget_mem hud) ue hold3
    | inr hold2 =>
      cases hkd : aget rd p with
      | none => rw [hkd] at hold2; cases hold2
      | some kd0 =>
        rw [hkd] at hold2
        exact hm (p, kd0) (aget_mem hkd) kv hold2

theorem dictMono_delKeys {rd : ReadsDict} (ks : List PosId)
    (hm : dictMono rd) : dictMono (delKeys rd ks) := by
  intro pkv hpkv
  exact hm pkv (List.mem_filter.mp hpkv).1

theorem accumulate_mono (cfg : Config) (rand : ℕ → ℚ) (st : BState)
    (pos : PosId) (key : GKey) (umi : String) (read : Read) (st' : BState)
    (hall : cfg.all_reads = false)
    (hm : dictMono st.reads_dict)
    (h : accumulate cfg rand st pos key umi read = Option.some st') :
    dictMono st'.reads_dict := by
  unfold accumulate at h
  cases h3 : aget3 st.reads_dict pos key umi with
  | none =>
    simp only [h3, Option.some.injEq] at h
    rw [← h]
    refine dictMono_aset3 pos key umi hm ?_
    intro rep hrep r hr
    rw [hall] at hrep
    simp only [Bool.false_eq_true, if_false, RVal.one.injEq] at hrep
    simp only [List.mem_singleton] at hr
    rw [hr, ← hrep]
  | some e =>
    simp only [h3, hall, Bool.false_eq_true, if_false] at h
    cases he : e.read with
    | many rs => simp only [he] at h; cases h
    | one rep =>
      simp only [he] at h
      cases hrc : rcget st.read_counts pos key umi with
      | none => simp only [hrc] at h; cases h
      | some rc =>
        simp only [hrc] at h
        cases hs : selectRep cfg.detection_method rep rc read (rand st.rix) with
        | none => simp only [hs] at h; cases h
        | some t =>
          obtain ⟨rep', rc', used⟩ := t
          simp only [hs, Option.some.injEq] at h
          rw [← h]
          obtain ⟨hrep_le, hread_le⟩ :=
            selectRep_mapq cfg.detection_method rep rc read (rand st.rix)
              rep' rc' used hs
          refine dictMono_aset3 pos key umi hm ?_
          intro rep0 hrep0 r hr
          simp only [RVal.one.injEq] at hrep0
          subst hrep0
          cases List.mem_append.mp hr with
          | inl hacc =>
            exact Nat.le_trans (aget3_entryMono hm h3 rep he r hacc) hrep_le
          | inr hrd =>
            simp only [List.mem_singleton] at hrd
            rw [hrd]
            exact hread_le

theorem emitBundles_mono {rd : ReadsDict} (ev : List (String × ℕ))
    (ks : List PosId) (hm : dictMono rd) :
    ∀ o ∈ emitBundles ev rd ks, ∀ b, o.1 = OutItem.mapped b →
      ∀ ue ∈ b, entryMono ue.2 := by
  intro o ho b hb ue hue
  unfold emitBundles at ho
  obtain ⟨p, _, hp⟩ := List.mem_flatMap.mp ho
  revert hp
  cases hkd : aget rd p with
  | none => intro hp; cases hp
  | some kd =>
    intro hp
    obtain ⟨kv, hkv, hkveq⟩ := List.mem_map.mp hp
    rw [← hkveq] at hb
    simp only [OutItem.mapped.injEq] at hb
    rw [← hb] at hue
    exact hm (p, kd) (aget_mem hkd) kv hkv ue hue

theorem flushContig_mono (st : BState) (pos : PosId)
    (hm : dictMono st.reads_dict) :
    dictMono ((flushContig st pos).2).reads_dict ∧
    (∀ o ∈ (flushContig st pos).1, ∀ b, o.1 = OutItem.mapped b →
      ∀ ue ∈ b, entryMono ue.2) := by
  unfold flushContig
  split
  · exact ⟨dictMono_delKeys _ hm, emitBundles_mono _ _ hm⟩
  · exact ⟨hm, by intro o ho; cases ho⟩

theorem flushPositional_mono (cfg : Config) (st : BState) (read : Read)
    (start : ℤ) (hm : dictMono st.reads_dict) :
    dictMono ((flushPositional cfg st read start).2).reads_dict ∧
    (∀ o ∈ (flushPositional cfg st read start).1, ∀ b,
      o.1 = OutItem.mapped b → ∀ ue ∈ b, entryMono ue.2) := by
  unfold flushPositional
  split
  · exact ⟨dictMono_delKeys _ hm, emitBundles_mono _ _ hm⟩
  · exact ⟨hm, by intro o ho; cases ho⟩

theorem groupPhase_mono (cfg : Config) (rand : ℕ → ℚ) (st : BState)
    (r : Read) (outs : List Output) (res : Option BState)
    (hall : cfg.all_reads = false) (hm : dictMono st.reads_dict)
    (hg : groupPhase cfg rand st r = (outs, res)) :
    (∀ st', res = Option.some st' → dictMono st'.reads_dict) ∧
    (∀ o ∈ outs, ∀ b, o.1 = OutItem.mapped b →
      ∀ ue ∈ b, entryMono ue.2) := by
  simp only [groupPhase] at hg
  split at hg
  · split at hg
    · split at hg
      · cases hg
        rename_i st3 hacc
        refine ⟨?_, (flushContig_mono st _ hm).2⟩
        intro st' hst'
        cases hst'
        exact accumulate_mono cfg rand _ _ _ _ _ _ hall
          (flushContig_mono st _ hm).1 hacc
      · cases hg
        exact ⟨(fun st' hst' => nomatch hst'), (flushContig_mono st _ hm).2⟩
    · split at hg
      · cases hg
        exact ⟨(fun st' hst' => nomatch hst'), by intro o ho; cases ho⟩
      · cases hg
        exact ⟨(fun st' hst' => nomatch hst'), by intro o ho; cases ho⟩
      · split at hg
        · cases hg
          refine ⟨?_, by intro o ho; cases ho⟩
          intro st' hst'
          cases hst'
          exact hm
        · split at hg
          · cases hg
            rename_i st3 hacc
            refine ⟨?_, (flushContig_mono st _ hm).2⟩
            intro st' hst'
            cases hst'
            exact accumulate_mono cfg rand _ _ _ _ _ _ hall
              (flushContig_mono st _ hm).1 hacc
          · cases hg
            exact ⟨(fun st' hst' => nomatch hst'), (flushContig_mono st _ hm).2⟩
  · split at hg
    · cases hg
      exact ⟨(fun st' hst' => nomatch hst'), by intro o ho; cases ho⟩
    · split at hg
      · cases hg
        rename_i st3 hacc
        refine ⟨?_, (flushPositional_mono cfg st r _ hm).2⟩
        intro st' hst'
        cases hst'
        exact accumulate_mono cfg rand _ _ _ _ _ _ hall
          (flushPositional_mono cfg st r _ hm).1 hacc
      · cases hg
        exact ⟨(fun st' hst' => nomatch hst'),
          (flushPositional_mono cfg st r _ hm).2⟩

theorem qtPhase_dict (cfg : Config) (st : BState) (r : Read) :
    (∀ outs res, qtPhase cfg st r = Sum.inl (outs, res) →
      outs = [] ∧ ∀ st', res = Option.some st' →
        st'.reads_dict = st.reads_dict) ∧
    (∀ st2, qtPhase cfg st r = Sum.inr st2 →
      st2.reads_dict = st.reads_dict) := by
  constructor
  · intro outs res h
    unfold qtPhase at h
    split at h
    · simp only [Sum.inl.injEq, Prod.mk.injEq] at h
      obtain ⟨h1, h2⟩ := h
      subst h1
      refine ⟨rfl, ?_⟩
      intro st' hst'
      rw [← h2] at hst'
      cases hst'
      rfl
    · exact absurd h (by simp)
  · intro st2 h
    unfold qtPhase at h
    split at h
    · exact absurd h (by simp)
    · simp only [Sum.inr.injEq] at h
      rw [← h]

theorem subsetPhase_dict (cfg : Config) (rand : ℕ → ℚ) (st : BState)
    (r : Read) :
    (∀ outs res, subsetPhase cfg rand st r = Sum.inl (outs, res) →
      outs = [] ∧ ∀ st', res = Option.some st' →
        st'.reads_dict = st.reads_dict) ∧
    (∀ st2, subsetPhase cfg rand st r = Sum.inr st2 →
      st2.reads_dict = st.reads_dict) := by
  cases hsub : cfg.subset with
  | none =>
    simp only [subsetPhase, hsub]
    exact qtPhase_dict cfg st r
  | some s =>
    by_cases h0 : s = 0
    · simp only [subsetPhase, hsub, if_pos h0]
      exact qtPhase_dict cfg st r
    · cases hd : decide (rand st.rix ≥ s) with
      | true =>
        simp only [subsetPhase, hsub, if_neg h0, hd]
        constructor
        · intro outs res h
          simp only [Sum.inl.injEq, Prod.mk.injEq] at h
          obtain ⟨h1, h2⟩ := h
          subst h1
          refine ⟨rfl, ?_⟩
          intro st' hst'
          rw [← h2] at hst'
          cases hst'
          rfl
        · intro st2 h
          exact absurd h (by simp)
      | false =>
        simp only [subsetPhase, hsub, if_neg h0, hd]
        exact qtPhase_dict cfg _ r

theorem samplePhase_dict (cfg : Config) (rand : ℕ → ℚ) (st : BState)
    (r : Read) :
    (∀ outs res, samplePhase cfg rand st r = Sum.inl (outs, res) →
      outs = [] ∧ ∀ st', res = Option.some st' →
        st'.reads_dict = st.reads_dict) ∧
    (∀ st2, samplePhase cfg rand st r = Sum.inr st2 →
      st2.reads_dict = st.reads_dict) := by
  have hs := subsetPhase_dict cfg rand
    (if cfg.paired then
      { st with read_events := cincr st.read_events "Paired Reads" }
    else st) r
  have hbase : (if cfg.paired then
      { st with read_events := cincr st.read_events "Paired Reads" }
    else st).reads_dict = st.reads_dict := by
    split <;> rfl
  constructor
  · intro outs res h
    obtain ⟨ho, hrest⟩ := hs.1 outs res h
    exact ⟨ho, fun st' hst' => by rw [hrest st' hst', hbase]⟩
  · intro st2 h
    rw [hs.2 st2 h, hbase]

theorem filterPhase_dict (cfg : Config) (rand : ℕ → ℚ) (st : BState)
    (r : Read) :
    (∀ outs res, filterPhase cfg rand st r = Sum.inl (outs, res) →
      (∀ o ∈ outs, ∃ r', o.1 = OutItem.single r') ∧
      ∀ st', res = Option.some st' → st'.reads_dict = st.reads_dict) ∧
    (∀ st2, filterPhase cfg rand st r = Sum.inr st2 →
      st2.reads_dict = st.reads_dict) := by
  constructor
  · intro outs res h
    simp only [filterPhase] at h
    split at h
    · split at h
      · split at h
        · simp only [Sum.inl.injEq, Prod.mk.injEq] at h
          obtain ⟨ho, hr⟩ := h
          subst ho; subst hr
          refine ⟨?_, ?_⟩
          · intro o ho
            simp only [List.mem_singleton] at ho
            subst ho
            exact ⟨r, rfl⟩
          · intro st' hst'
            cases hst'
            rfl
        · simp only [Sum.inl.injEq, Prod.mk.injEq] at h
          obtain ⟨ho, hr⟩ := h
          subst ho; subst hr
          exact ⟨(fun o ho => nomatch ho), fun st' hst' => by cases hst'; rfl⟩
      · simp only [Sum.inl.injEq, Prod.mk.injEq] at h
        obtain ⟨ho, hr⟩ := h
        subst ho; subst hr
        exact ⟨(fun o ho => nomatch ho), fun st' hst' => by cases hst'; rfl⟩
    · split at h
      · split at h
        · simp only [Sum.inl.injEq, Prod.mk.injEq] at h
          obtain ⟨ho, hr⟩ := h
          subst ho; subst hr
          refine ⟨?_, ?_⟩
          · intro o ho
            simp only [List.mem_singleton] at ho
            subst ho
            exact ⟨r, rfl⟩
          · intro st' hst'
            cases hst'
            rfl
        · simp only [Sum.inl.injEq, Prod.mk.injEq] at h
          obtain ⟨ho, hr⟩ := h
          subst ho; subst hr
          exact ⟨(fun o ho => nomatch ho), fun st' hst' => by cases hst'; rfl⟩
      · split at h
        · split at h
          · simp only [Sum.inl.injEq, Prod.mk.injEq] at h
            obtain ⟨ho, hr⟩ := h
            subst ho; subst hr
            refine ⟨?_, ?_⟩
            · intro o ho
              simp only [List.mem_singleton] at ho
              subst ho
              exact ⟨r, rfl⟩
            · intro st' hst'
              cases hst'
              rfl
          · simp only [Sum.inl.injEq, Prod.mk.injEq] at h
            obtain ⟨ho, hr⟩ := h
            subst ho; subst hr
            exact ⟨(fun o ho => nomatch ho),
              fun st' hst' => by cases hst'; rfl⟩
        · obtain ⟨ho, hrest⟩ := (samplePhase_dict cfg rand
            { st with read_events := cincr st.read_events "Input Reads" } r).1
            outs res h
          subst ho
          exact ⟨(fun o ho => nomatch ho), hrest⟩
  · intro st2 h
    simp only [filterPhase] at h
    split at h
    · split at h
      · split at h
        · cases h
        · cases h
      · cases h
    · split at h
      · split at h
        · cases h
        · cases h
      · split at h
        · split at h
          · cases h
          · cases h
        · exact (samplePhase_dict cfg rand
            { st with read_events := cincr st.read_events "Input Reads" } r).2
            st2 h

theorem processRead_mono (cfg : Config) (rand : ℕ → ℚ) (st : BState)
    (r : Read) (outs : List Output) (res : Option BState)
    (hall : cfg.all_reads = false) (hm : dictMono st.reads_dict)
    (h : processRead cfg rand st r = (outs, res)) :
    (∀ st', res = Option.some st' → dictMono st'.reads_dict) ∧
    (∀ o ∈ outs, ∀ b, o.1 = OutItem.mapped b →
      ∀ ue ∈ b, entryMono ue.2) := by
  unfold processRead at h
  cases hf : filterPhase cfg rand st r with
  | inl out =>
    simp only [hf] at h
    cases h
    obtain ⟨hsingle, hdict⟩ := (filterPhase_dict cfg rand st r).1 outs res hf
    constructor
    · intro st' hst'
      rw [hdict st' hst']
      exact hm
    · intro o ho b hb
      obtain ⟨r', hr'⟩ := hsingle o ho
      rw [hr'] at hb
      cases hb
  | inr st2 =>
    simp only [hf] at h
    have hd2 : st2.reads_dict = st.reads_dict :=
      (filterPhase_dict cfg rand st r).2 st2 hf
    exact groupPhase_mono cfg rand st2 r outs res hall (hd2 ▸ hm) h

theorem runReads_mono (cfg : Config) (rand : ℕ → ℚ)
    (hall : cfg.all_reads = false) :
    ∀ (reads : List Read) (st : BState) (outs : List Output)
      (res : Option BState),
    dictMono st.reads_dict →
    runReads cfg rand st reads = (outs, res) →
    (∀ st', res = Option.some st' → dictMono st'.reads_dict) ∧
    (∀ o ∈ outs, ∀ b, o.1 = OutItem.mapped b →
      ∀ ue ∈ b, entryMono ue.2) := by
  intro reads
  induction reads with
  | nil =>
    intro st outs res hm h
    simp only [runReads] at h
    cases h
    refine ⟨?_, by intro o ho; cases ho⟩
    intro st' hst'
    cases hst'
    exact hm
  | cons r rs ih =>
    intro st outs res hm h
    simp only [runReads] at h
    cases hp : processRead cfg rand st r with
    | mk pouts pres =>
      obtain ⟨hcur1, hcur2⟩ :=
        processRead_mono cfg rand st r pouts pres hall hm hp
      cases pres with
      | none =>
        simp only [hp] at h
        cases h
        exact ⟨(fun st' hst' => nomatch hst'), hcur2⟩
      | some st1 =>
        simp only [hp] at h
        cases hrest : runReads cfg rand st1 rs with
        | mk routs rres =>
          simp only [hrest] at h
          cases h
          obtain ⟨hres1, hres2⟩ := ih st1 routs res (hcur1 st1 rfl) hrest
          refine ⟨hres1, ?_⟩
          intro o ho
          cases List.mem_append.mp ho with
          | inl hin => exact hcur2 o hin
          | inr hin => exact hres2 o hin

theorem finalFlush_mono (st : BState) (hm : dictMono st.reads_dict) :
    ∀ o ∈ finalFlush st, ∀ b, o.1 = OutItem.mapped b →
      ∀ ue ∈ b, entryMono ue.2 := by
  intro o ho b hb ue hue
  unfold finalFlush at ho
  obtain ⟨pkv, hpkv, hp⟩ := List.mem_flatMap.mp ho
  obtain ⟨kv, hkv, hkveq⟩ := List.mem_map.mp hp
  rw [← hkveq] at hb
  simp only [OutItem.mapped.injEq] at hb
  rw [← hb] at hue
  exact hm pkv hpkv kv hkv ue hue

/-- C3: with `all_reads` false, every bundle entry ever yielded by
`get_bundles` - during the run or in the terminal flush - carries a single
representative whose MAPQ is at least the MAPQ of every read that was routed
to that (position, key, barcode) bucket (recorded by the ghost `acc` trace),
under every detection method. -/
theorem C3_representative_mapq (cfg : Config) (rand : ℕ → ℚ)
    (reads : List Read) (outs : List Output) (res : Option BState)
    (hall : cfg.all_reads = false)
    (h : getBundles cfg rand reads = (outs, res)) :
    ∀ o ∈ outs, ∀ b, o.1 = OutItem.mapped b →
      ∀ ue ∈ b, ∀ rep, ue.2.read = RVal.one rep →
        ∀ r ∈ ue.2.acc, r.mapq ≤ rep.mapq := by
  have hminit : dictMono initB.reads_dict := by
    intro pkv hpkv
    cases hpkv
  unfold getBundles at h
  cases hrun : runReads cfg rand initB reads with
  | mk routs rres =>
    obtain ⟨hr1, hr2⟩ :=
      runReads_mono cfg rand hall reads initB routs rres hminit hrun
    cases rres with
    | none =>
      simp only [hrun] at h
      cases h
      intro o ho b hb ue hue rep hrep r hr
      exact hr2 o ho b hb ue hue rep hrep r hr
    | some stf =>
      simp only [hrun] at h
      cases h
      intro o ho b hb ue hue rep hrep r hr
      cases List.mem_append.mp ho with
      | inl hin => exact hr2 o hin b hb ue hue rep hrep r hr
      | inr hin =>
        exact finalFlush_mono stf (hr1 stf rfl) o hin b hb ue hue rep hrep r hr

/-- C3 witness inputs: two same-bucket reads, the second with lower MAPQ. -/
def c3r1 : Read := { baseRead with qname := "m1" }

def c3r2 : Read := { baseRead with qname := "m2", mapq := 20 }

def c3entry : Entry := ⟨RVal.one c3r1, 2, [c3r1, c3r2]⟩

def c3out : Output := (OutItem.mapped [("", c3entry)], [("Input Reads", 2)])

theorem C3_representative_mapq_witness :
    Config.all_reads {} = false ∧ c3r2.mapq ≤ c3r1.mapq := by
  refine ⟨rfl, ?_⟩
  exact C3_representative_mapq {} (fun _ => 0) [c3r1, c3r2]
    (getBundles {} (fun _ => 0) [c3r1, c3r2]).1
    (getBundles {} (fun _ => 0) [c3r1, c3r2]).2 rfl rfl
    c3out (by decide) [("", c3entry)] rfl ("", c3entry) (by decide)
    c3r1 rfl c3r2 (by decide)

/-! ### C7: TwoPassPairWriter mate completeness -/

theorem mem_removeKey {ks : List (String × String × ℤ)}
    {k a : String × String × ℤ} :
    a ∈ removeKey ks k ↔ a ∈ ks ∧ ¬ a = k := by
  simp [removeKey]

theorem not_mem_removeKey_self {ks : List (String × String × ℤ)}
    {k : String × String × ℤ} : k ∉ removeKey ks k := by
  simp [removeKey]

theorem mem_addKey {ks : List (String × String × ℤ)}
    {k a : String × String × ℤ} :
    a ∈ addKey ks k ↔ a ∈ ks ∨ a = k := by
  unfold addKey
  split
  · rename_i h
    constructor
    · exact Or.inl
    · intro hc
      cases hc with
      | inl h' => exact h'
      | inr h' =>
        subst h'
        exact List.elem_iff.mp h
  · simp [List.mem_append]

theorem mem_addKey_self {ks : List (String × String × ℤ)}
    {k : String × String × ℤ} : k ∈ addKey ks k :=
  mem_addKey.mpr (Or.inr rfl)

theorem fetchRef_sub {infile : List Read} {c : Option String} {r : Read}
    (h : r ∈ fetchRef infile c) : r ∈ infile := by
  unfold fetchRef at h
  cases c with
  | some s => exact (List.mem_filter.mp h).1
  | none => exact (List.mem_filter.mp h).1

theorem scanStep_cases (st : WState) (r : Read) :
    scanStep st r = st ∨
    (st.read1s.contains (keyOf r) = true ∧
     scanStep st r =
       ⟨st.chrom, removeKey st.read1s (keyOf r), st.out ++ [r]⟩) := by
  unfold scanStep
  split
  · exact Or.inl rfl
  · split
    · rename_i hc
      exact Or.inr ⟨hc, rfl⟩
    · exact Or.inl rfl

theorem closeStep_cases (acc : WState × ℕ) (r : Read) :
    closeStep acc r = acc ∨
    (acc.1.read1s.contains (keyOf r) = true ∧
     closeStep acc r =
       (⟨acc.1.chrom, removeKey acc.1.read1s (keyOf r),
         acc.1.out ++ [r]⟩, acc.2 + 1)) := by
  unfold closeStep
  split
  · exact Or.inl rfl
  · split
    · rename_i hc
      exact Or.inr ⟨hc, rfl⟩
    · exact Or.inl rfl

theorem closeStep_not_mem {acc : WState × ℕ} {r : Read}
    {k : String × String × ℤ} (h : k ∉ acc.1.read1s) :
    k ∉ (closeStep acc r).1.read1s := by
  cases closeStep_cases acc r with
  | inl he => rw [he]; exact h
  | inr he =>
    rw [he.2]
    intro hmem
    exact h (mem_removeKey.mp hmem).1

theorem closeFold_not_mem (L : List Read) :
    ∀ (acc : WState × ℕ) (k : String × String × ℤ), k ∉ acc.1.read1s →
    k ∉ ((L.foldl closeStep acc).1).read1s := by
  induction L with
  | nil => intro acc k h; exact h
  | cons r L' ih =>
    intro acc k h
    exact ih (closeStep acc r) k (closeStep_not_mem h)

theorem close_progress (L : List Read) :
    ∀ (acc : WState × ℕ) (k : String × String × ℤ) (m : Read), m ∈ L →
    keyOf m = k → m.is_unmapped = false →
    k ∉ ((L.foldl closeStep acc).1).read1s := by
  induction L with
  | nil => intro acc k m hm; cases hm
  | cons r L' ih =>
    intro acc k m hm hkey hmap
    by_cases hk : k ∈ (closeStep acc r).1.read1s
    · cases List.mem_cons.mp hm with
      | inr hm' => exact ih (closeStep acc r) k m hm' hkey hmap
      | inl hrm =>
        subst hrm
        exfalso
        by_cases hin : k ∈ acc.1.read1s
        · have hc : acc.1.read1s.contains (keyOf m) = true := by
            rw [hkey]
            exact List.elem_iff.mpr hin
          have : closeStep acc m =
              (⟨acc.1.chrom, removeKey acc.1.read1s (keyOf m),
                acc.1.out ++ [m]⟩, acc.2 + 1) := by
            unfold closeStep
            rw [if_neg (by simp [hmap]), if_pos hc]
          rw [this] at hk
          rw [← hkey] at hk
          exact not_mem_removeKey_self hk
        · exact closeStep_not_mem hin hk
    · exact closeFold_not_mem L' (closeStep acc r) k hk

/-- The hypotheses of the amended C7 claim: every written record is a
mate-mapped read1, written records have pairwise distinct query names, and
every record of the source whose scan key equals a written record's pending
mate key is a mapped non-read1 record, unique (as a value) in the source. -/
def WHyp (infile writes : List Read) : Prop :=
  (∀ w ∈ writes, w.is_read1 = true ∧ w.mate_is_unmapped = false) ∧
  writes.Nodup ∧
  (∀ w ∈ writes, ∀ w' ∈ writes, w.qname = w'.qname → w = w') ∧
  (∀ w ∈ writes, ∀ r ∈ infile, keyOf r = mateKey w →
    r.is_unmapped = false ∧ r.is_read1 = false ∧
    ∀ r' ∈ infile, keyOf r' = mateKey w → r' = r)

/-- The running invariant of a `TwoPassPairWriter`: every pending key stems
from an already-written record; each written record sits exactly once in the
output, its mate-key matchers written exactly once if its key was cleared
and not at all while it is pending; records not yet written have clean
counts and no pending key. -/
def WInv (infile done todo : List Read) (st : WState) : Prop :=
  (∀ k ∈ st.read1s, ∃ w ∈ done, k = mateKey w) ∧
  (∀ w ∈ done,
    st.out.count w = 1 ∧
    ((mateKey w ∈ st.read1s ∧
        ∀ r ∈ infile, keyOf r = mateKey w → st.out.count r = 0) ∨
     (mateKey w ∉ st.read1s ∧
        ∀ r ∈ infile, keyOf r = mateKey w → st.out.count r = 1))) ∧
  (∀ w ∈ todo, st.out.count w = 0 ∧ mateKey w ∉ st.read1s ∧
    ∀ r ∈ infile, keyOf r = mateKey w → st.out.count r = 0)

theorem winv_matchStep (infile writes done todo : List Read)
    (hw : writes = done ++ todo) (hhyp : WHyp infile writes)
    (st st' : WState) (r : Read) (hr : r ∈ infile)
    (hres : st' = st ∨
      (st.read1s.contains (keyOf r) = true ∧
       st' = ⟨st.chrom, removeKey st.read1s (keyOf r), st.out ++ [r]⟩))
    (hinv : WInv infile done todo st) : WInv infile done todo st' := by
  obtain ⟨hflags, hnodup, hinj, hmate⟩ := hhyp
  obtain ⟨hprov, hdone, htodo⟩ := hinv
  cases hres with
  | inl he => rw [he]; exact ⟨hprov, hdone, htodo⟩
  | inr he =>
    obtain ⟨hc, he⟩ := he
    have hkmem : keyOf r ∈ st.read1s := List.elem_iff.mp hc
    obtain ⟨w0, hw0done, hkey0⟩ := hprov (keyOf r) hkmem
    have hw0 : w0 ∈ writes := by
      rw [hw]
      exact List.mem_append.mpr (Or.inl hw0done)
    obtain ⟨hrmap, hrread1, huniq⟩ := hmate w0 hw0 r hr hkey0
    subst he
    refine ⟨?_, ?_, ?_⟩
    · intro k hk
      exact hprov k (mem_removeKey.mp hk).1
    · intro w hwdone
      obtain ⟨hcount, hdich⟩ := hdone w hwdone
      have hwwrites : w ∈ writes := by
        rw [hw]
        exact List.mem_append.mpr (Or.inl hwdone)
      have hwread1 : w.is_read1 = true := (hflags w hwwrites).1
      have hrw : ¬ (w = r) := by
        intro hrw
        rw [hrw, hrread1] at hwread1
        cases hwread1
      constructor
      · show (st.out ++ [r]).count w = 1
        simp [List.count_append, List.count_cons, hrw, hcount]
      · by_cases hww0 : w = w0
        · subst hww0
          cases hdich with
          | inr hR => exact absurd (hkey0 ▸ hkmem) hR.1
          | inl hL =>
            refine Or.inr ⟨?_, ?_⟩
            · rw [← hkey0]
              exact not_mem_removeKey_self
            · intro r' hr' hkey'
              have hrr' : r' = r := huniq r' hr' hkey'
              subst hrr'
              show (st.out ++ [r']).count r' = 1
              have h0 : st.out.count r' = 0 := hL.2 r' hr' hkey'
              simp [List.count_append, List.count_cons, h0]
        · have hkne : mateKey w ≠ keyOf r := by
            rw [hkey0]
            intro hkk
            exact hww0 (hinj w hwwrites w0 hw0 (congrArg Prod.fst hkk))
          have hmemiff :
              mateKey w ∈ removeKey st.read1s (keyOf r) ↔
              mateKey w ∈ st.read1s := by
            rw [mem_removeKey]
            exact ⟨And.left, fun hm => ⟨hm, hkne⟩⟩
          have hcnt : ∀ r' ∈ infile, keyOf r' = mateKey w →
              (st.out ++ [r]).count r' = st.out.count r' := by
            intro r' hr' hk'
            have hne : ¬ (r' = r) := by
              intro hrr
              subst hrr
              exact hkne (by rw [← hk'])
            simp [List.count_append, List.count_cons, hne]
          cases hdich with
          | inl hL =>
            exact Or.inl ⟨hmemiff.mpr hL.1,
              fun r' hr' hk' => by rw [hcnt r' hr' hk']; exact hL.2 r' hr' hk'⟩
          | inr hR =>
            exact Or.inr ⟨fun hm => hR.1 (hmemiff.mp hm),
              fun r' hr' hk' => by rw [hcnt r' hr' hk']; exact hR.2 r' hr' hk'⟩
    · intro w hwtodo
      obtain ⟨hcount, hnotmem, hmcnt⟩ := htodo w hwtodo
      have hwwrites : w ∈ writes := by
        rw [hw]
        exact List.mem_append.mpr (Or.inr hwtodo)
      have hwread1 := (hflags w hwwrites).1
      have hrw : ¬ (w = r) := by
        intro hrw
        rw [hrw, hrread1] at hwread1
        cases hwread1
      have hwne0 : w ≠ w0 := by
        intro hww
        subst hww
        have hd : List.Disjoint done todo :=
          List.disjoint_of_nodup_append (hw ▸ hnodup)
        exact hd hw0done hwtodo
      have hkne : mateKey w ≠ keyOf r := by
        rw [hkey0]
        intro hkk
        exact hwne0 (hinj w hwwrites w0 hw0 (congrArg Prod.fst hkk))
      refine ⟨?_, ?_, ?_⟩
      · simp [List.count_append, List.count_cons, hrw, hcount]
      · intro hm
        exact hnotmem (mem_removeKey.mp hm).1
      · intro r' hr' hk'
        have hne : ¬ (r' = r) := by
          intro hrr
          subst hrr
          exact hkne (by rw [← hk'])
        have hne' : ¬ r = r' := fun hrr => hne hrr.symm
        simp [List.count_append, List.count_cons, hne', hmcnt r' hr' hk']

theorem winv_scanFold (infile writes done todo : List Read)
    (hw : writes = done ++ todo) (hhyp : WHyp infile writes) :
    ∀ (L : List Read), (∀ x ∈ L, x ∈ infile) → ∀ st : WState,
    WInv infile done todo st →
    WInv infile done todo (L.foldl scanStep st) := by
  intro L
  induction L with
  | nil => intro _ st h; exact h
  | cons r L' ih =>
    intro hsub st h
    exact ih (fun x hx => hsub x (List.mem_cons_of_mem _ hx)) (scanStep st r)
      (winv_matchStep infile writes done todo hw hhyp st (scanStep st r) r
        (hsub r (List.mem_cons_self _ _)) (scanStep_cases st r) h)

theorem winv_closeFold (infile writes done todo : List Read)
    (hw : writes = done ++ todo) (hhyp : WHyp infile writes) :
    ∀ (L : List Read), (∀ x ∈ L, x ∈ infile) → ∀ acc : WState × ℕ,
    WInv infile done todo acc.1 →
    WInv infile done todo ((L.foldl closeStep acc).1) := by
  intro L
  induction L with
  | nil => intro _ acc h; exact h
  | cons r L' ih =>
    intro hsub acc h
    refine ih (fun x hx => hsub x (List.mem_cons_of_mem _ hx)) (closeStep acc r)
      (winv_matchStep infile writes done todo hw hhyp acc.1 (closeStep acc r).1
        r (hsub r (List.mem_cons_self _ _)) ?_ h)
    cases closeStep_cases acc r with
    | inl he => exact Or.inl (by rw [he])
    | inr he => exact Or.inr ⟨he.1, by rw [he.2]⟩

theorem winv_writeMates (infile writes done todo : List Read)
    (hw : writes = done ++ todo) (hhyp : WHyp infile writes) (st : WState)
    (h : WInv infile done todo st) :
    WInv infile done todo (writeMates infile st) :=
  winv_scanFold infile writes done todo hw hhyp _
    (fun _ hx => fetchRef_sub hx) st h

theorem winv_addWrite (infile writes done todo : List Read) (w : Read)
    (hw : writes = done ++ w :: todo) (hhyp : WHyp infile writes)
    (st1 : WState) (h1 : WInv infile done (w :: todo) st1) :
    WInv infile (done ++ [w]) todo
      { st1 with
          read1s := addKey st1.read1s (mateKey w),
          out := st1.out ++ [w] } := by
  obtain ⟨hflags, hnodup, hinj, hmate⟩ := hhyp
  obtain ⟨hprov, hdone, htodo⟩ := h1
  have hwwrites : w ∈ writes := by
    rw [hw]
    exact List.mem_append.mpr (Or.inr (List.mem_cons_self _ _))
  have hwread1 : w.is_read1 = true := (hflags w hwwrites).1
  have hdisj : List.Disjoint done (w :: todo) :=
    List.disjoint_of_nodup_append (hw ▸ hnodup)
  have hwnotintodo : w ∉ todo :=
    (List.nodup_cons.mp ((hw ▸ hnodup).of_append_right)).1
  obtain ⟨hcw, hnotmemw, hmcw⟩ := htodo w (List.mem_cons_self _ _)
  refine ⟨?_, ?_, ?_⟩
  · intro k hk
    cases mem_addKey.mp hk with
    | inl hin =>
      obtain ⟨w', hw', he⟩ := hprov k hin
      exact ⟨w', List.mem_append.mpr (Or.inl hw'), he⟩
    | inr he =>
      exact ⟨w, List.mem_append.mpr (Or.inr (List.mem_singleton.mpr rfl)), he⟩
  · intro w' hw'
    cases List.mem_append.mp hw' with
    | inl hwd =>
      obtain ⟨hcount, hdich⟩ := hdone w' hwd
      have hw'writes : w' ∈ writes := by
        rw [hw]
        exact List.mem_append.mpr (Or.inl hwd)
      have hne : ¬ (w' = w) := by
        intro he
        subst he
        exact hdisj hwd (List.mem_cons_self _ _)
      constructor
      · simp [List.count_append, List.count_cons, hne, hcount]
      · have hkne : mateKey w' ≠ mateKey w := fun hkk =>
          hne (hinj w' hw'writes w hwwrites (congrArg Prod.fst hkk))
        have hmemiff :
            mateKey w' ∈ addKey st1.read1s (mateKey w) ↔
            mateKey w' ∈ st1.read1s := by
          rw [mem_addKey]
          constructor
          · intro hc
            cases hc with
            | inl h => exact h
            | inr h => exact absurd h hkne
          · exact Or.inl
        have hcnt : ∀ r' ∈ infile, keyOf r' = mateKey w' →
            (st1.out ++ [w]).count r' = st1.out.count r' := by
          intro r' hr' hk'
          have hne2 : ¬ (r' = w) := by
            intro he
            apply hne
            apply hinj w' hw'writes w hwwrites
            have hq : (mateKey w').1 = (keyOf r').1 :=
              congrArg Prod.fst hk'.symm
            rw [he] at hq
            exact hq
          have hne2' : ¬ (w = r') := fun h => hne2 h.symm
          simp [List.count_append, List.count_cons, hne2, hne2']
        cases hdich with
        | inl hL =>
          exact Or.inl ⟨hmemiff.mpr hL.1,
            fun r' hr' hk' => by rw [hcnt r' hr' hk']; exact hL.2 r' hr' hk'⟩
        | inr hR =>
          exact Or.inr ⟨fun hm => hR.1 (hmemiff.mp hm),
            fun r' hr' hk' => by rw [hcnt r' hr' hk']; exact hR.2 r' hr' hk'⟩
    | inr hws =>
      have hww' : w' = w := List.mem_singleton.mp hws
      subst hww'
      constructor
      · simp [List.count_append, List.count_cons, hcw]
      · refine Or.inl ⟨mem_addKey_self, ?_⟩
        intro r' hr' hk'
        obtain ⟨-, hr'read1, -⟩ := hmate w' hwwrites r' hr' hk'
        have hne : ¬ (r' = w') := by
          intro he
          rw [he] at hr'read1
          rw [hr'read1] at hwread1
          cases hwread1
        have hne' : ¬ (w' = r') := fun h => hne h.symm
        simp [List.count_append, List.count_cons, hne, hne',
          hmcw r' hr' hk']
  · intro w' hw'todo
    obtain ⟨hc', hnm', hmc'⟩ := htodo w' (List.mem_cons_of_mem _ hw'todo)
    have hw'writes : w' ∈ writes := by
      rw [hw]
      exact List.mem_append.mpr (Or.inr (List.mem_cons_of_mem _ hw'todo))
    have hne : ¬ (w' = w) := by
      intro he
      subst he
      exact hwnotintodo hw'todo
    refine ⟨?_, ?_, ?_⟩
    · simp [List.count_append, List.count_cons, hne, hc']
    · intro hm
      cases mem_addKey.mp hm with
      | inl h => exact hnm' h
      | inr h =>
        exact hne (hinj w' hw'writes w hwwrites (congrArg Prod.fst h))
    · intro r' hr' hk'
      have hne2 : ¬ (r' = w) := by
        intro he
        apply hne
        apply hinj w' hw'writes w hwwrites
        have hq : (mateKey w').1 = (keyOf r').1 :=
          congrArg Prod.fst hk'.symm
        rw [he] at hq
        exact hq
      have hne2' : ¬ (w = r') := fun h => hne2 h.symm
      simp [List.count_append, List.count_cons, hne2, hne2',
        hmc' r' hr' hk']

theorem winv_writeRead (infile writes done todo : List Read) (w : Read)
    (hw : writes = done ++ w :: todo) (hhyp : WHyp infile writes)
    (st : WState) (hinv : WInv infile done (w :: todo) st) :
    WInv infile (done ++ [w]) todo (writeRead infile st w false) := by
  have hwwrites : w ∈ writes := by
    rw [hw]
    exact List.mem_append.mpr (Or.inr (List.mem_cons_self _ _))
  have hmu : w.mate_is_unmapped = false := (hhyp.1 w hwwrites).2
  have hw2 : writes = done ++ (w :: todo) := hw
  unfold writeRead
  rw [if_neg (by simp [hmu])]
  split
  · exact winv_addWrite infile writes done todo w hw hhyp _
      (winv_writeMates infile writes done (w :: todo) hw2 hhyp st hinv)
  · exact winv_addWrite infile writes done todo w hw hhyp st hinv

theorem winv_init (infile writes : List Read) :
    WInv infile [] writes initW := by
  refine ⟨?_, ?_, ?_⟩
  · intro k hk
    cases hk
  · intro w hw
    cases hw
  · intro w hw
    exact ⟨rfl, (by intro h; cases h), fun r hr hk => rfl⟩

theorem winv_run (infile writes : List Read) (hhyp : WHyp infile writes) :
    ∀ (todo done : List Read) (st : WState), writes = done ++ todo →
    WInv infile done todo st →
    WInv infile writes []
      (todo.foldl (fun st w => writeRead infile st w false) st) := by
  intro todo
  induction todo with
  | nil =>
    intro done st hsplit hinv
    rw [List.append_nil] at hsplit
    subst hsplit
    exact hinv
  | cons w todo' ih =>
    intro done st hsplit hinv
    simp only [List.foldl_cons]
    refine ih (done ++ [w]) _ ?_
      (winv_writeRead infile writes done todo' w hsplit hhyp st hinv)
    rw [hsplit, List.append_assoc]
    rfl

theorem winv_close (infile writes : List Read) (hhyp : WHyp infile writes)
    (st : WState) (h : WInv infile writes [] st) :
    WInv infile writes [] ((closeW infile st).1) := by
  unfold closeW
  exact winv_closeFold infile writes writes [] (List.append_nil writes).symm
    hhyp infile (fun _ hx => hx) (writeMates infile st, 0)
    (winv_writeMates infile writes writes [] (List.append_nil writes).symm
      hhyp st h)

/-- C7 counterexample: on the source `c7infile` the written record `c7A` has
its mapped mate `c7M` present (one contig later), and after the write and a
single `close()` the pending set is empty ("mates never found" is 0) - yet
the true mate `c7M` appears zero times in the combined output: the final
scan matched the colliding read1 record `c7R` instead, so pair completeness
fails. -/
theorem C7_counterexample :
    c7A.is_read1 = true ∧ c7A.mate_is_unmapped = false ∧
    c7M ∈ c7infile ∧ keyOf c7M = mateKey c7A ∧
    c7M.is_unmapped = false ∧ c7M.mate_is_unmapped = false ∧
    c7M.is_read1 = false ∧
    ((closeW c7infile (runWriter c7infile [c7A])).1).read1s = [] ∧
    ((closeW c7infile (runWriter c7infile [c7A])).1).out.count c7M = 0 := by
  decide

/-- C7 (amended): pair completeness holds when, additionally, no other
record of the source collides with a pending mate key: if every written
record is a mate-mapped read1, written query names are pairwise distinct,
every source record whose key equals a written record's mate key is a
mapped non-read1 record and unique in the source, and each written record
has at least one such mate record, then after all writes and one `close()`
the pending set is empty ("mates never found" = 0) and every written record
and its mate each appear exactly once in the combined output. -/
theorem C7_mate_completeness (infile writes : List Read)
    (hflags : ∀ w ∈ writes, w.is_read1 = true ∧ w.mate_is_unmapped = false)
    (hqn : (writes.map Read.qname).Nodup)
    (hmate : ∀ w ∈ writes, ∀ r ∈ infile, keyOf r = mateKey w →
      r.is_unmapped = false ∧ r.is_read1 = false ∧
      ∀ r' ∈ infile, keyOf r' = mateKey w → r' = r)
    (hex : ∀ w ∈ writes, ∃ m ∈ infile, keyOf m = mateKey w) :
    ((closeW infile (runWriter infile writes)).1).read1s = [] ∧
    ∀ w ∈ writes,
      ((closeW infile (runWriter infile writes)).1).out.count w = 1 ∧
      ∀ m ∈ infile, keyOf m = mateKey w →
        ((closeW infile (runWriter infile writes)).1).out.count m = 1 := by
  have hhyp : WHyp infile writes :=
    ⟨hflags, hqn.of_map,
     fun w hw w' hw' h => List.inj_on_of_nodup_map hqn hw hw' h, hmate⟩
  have hrun : WInv infile writes [] (runWriter infile writes) :=
    winv_run infile writes hhyp writes [] initW
      (List.nil_append writes).symm (winv_init infile writes)
  have hfin : WInv infile writes []
      ((closeW infile (runWriter infile writes)).1) :=
    winv_close infile writes hhyp (runWriter infile writes) hrun
  have hempty :
      ((closeW infile (runWriter infile writes)).1).read1s = [] := by
    rw [List.eq_nil_iff_forall_not_mem]
    intro k hk
    obtain ⟨w, hwmem, hkey⟩ := hfin.1 k hk
    obtain ⟨m, hm, hkm⟩ := hex w hwmem
    have hmmap : m.is_unmapped = false := (hmate w hwmem m hm hkm).1
    unfold closeW at hk
    exact close_progress infile (writeMates infile (runWriter infile writes), 0)
      k m hm (by rw [hkm, hkey]) hmmap hk
  refine ⟨hempty, ?_⟩
  intro w hw
  obtain ⟨hcount, hdich⟩ := hfin.2.1 w hw
  refine ⟨hcount, ?_⟩
  intro m hm hkm
  cases hdich with
  | inl hL =>
    rw [hempty] at hL
    exact absurd hL.1 (List.not_mem_nil _)
  | inr hR => exact hR.2 m hm hkm

theorem C7_mate_completeness_witness :
    ((closeW [c7A, c7M] (runWriter [c7A, c7M] [c7A])).1).read1s = [] ∧
    ((closeW [c7A, c7M] (runWriter [c7A, c7M] [c7A])).1).out.count c7A = 1 ∧
    ((closeW [c7A, c7M] (runWriter [c7A, c7M] [c7A])).1).out.count c7M = 1 := by
  have h := C7_mate_completeness [c7A, c7M] [c7A] (by decide) (by decide)
    (by decide) (by decide)
  exact ⟨h.1, (h.2 c7A (List.mem_cons_self _ _)).1,
    (h.2 c7A (List.mem_cons_self _ _)).2 c7M (by decide) (by decide)⟩
